import Mathlib

/-!
Verification of the Epicurious scraper core (src/main.js) against its
natural-language specification.

The JavaScript source is shallowly embedded: pure helper functions become
Lean functions over `String`, `List Char` and a `Json` value tree; the
stateful crawl pieces become explicit state passing.  Modelling notes:

* JavaScript string falsiness: for the scalar record fields only `null` /
  `undefined` / the empty string matter in this program, modelled as
  `Option String` with `jtruthy`.  (The numeric rating fields are carried
  as opaque strings; the JS falsiness of the number 0 is not distinguished,
  since merging only inspects truthiness and ratings are opaque
  passthrough values.)
* `value.replace(/\s+/g, ' ')` is modelled by first mapping every
  whitespace character to a space and then squeezing adjacent spaces,
  which computes the same result.  The whitespace class is approximated
  by space, tab, newline and carriage return.
* `new Set(list)` preserves first-insertion order, modelled by
  `dedupSeen` which keeps the first occurrence of each element.
-/

set_option autoImplicit false

/-- Whitespace test approximating the JS regex class `\s`. -/
def isWs (c : Char) : Bool := c = ' ' || c = '\t' || c = '\n' || c = '\r'

/-- Map every whitespace character to a plain space. -/
def mapWs (l : List Char) : List Char := l.map (fun c => if isWs c then ' ' else c)

/-- Squeeze runs of adjacent whitespace down to their last character. -/
def squeezeWs : List Char → List Char
  | [] => []
  | [c] => [c]
  | a :: b :: rest => if isWs a && isWs b then squeezeWs (b :: rest) else a :: squeezeWs (b :: rest)

/-- Embedding of `replace(/\s+/g, ' ')`: every maximal whitespace run becomes one space. -/
def collapseWsC (l : List Char) : List Char := squeezeWs (mapWs l)

/-- Drop leading whitespace, as the left half of `String.prototype.trim`. -/
def trimLeftC (l : List Char) : List Char := l.dropWhile isWs

/-- Drop trailing whitespace, as the right half of `String.prototype.trim`. -/
def trimRightC : List Char → List Char
  | [] => []
  | c :: cs =>
    match trimRightC cs with
    | [] => if isWs c then [] else [c]
    | r => c :: r

/-- Embedding of `String.prototype.trim` (applied after whitespace collapsing). -/
def trimC (l : List Char) : List Char := trimRightC (trimLeftC l)

/-- Embedding of the scalar case of `normalize` in main.js:
`String(value).replace(/\s+/g, ' ').trim() || null`. -/
def normStr (s : String) : Option String :=
  let t := String.mk (trimC (collapseWsC s.data))
  if t = "" then none else some t

/-- Every whitespace character of the list is a plain space. -/
def allSpace (l : List Char) : Bool := l.all (fun c => !isWs c || c == ' ')

/-- Whitespace-canonical form: every whitespace character is a plain space
and no two adjacent characters are both whitespace.  This is the shape
`collapseWsC` produces and is preserved by trimming. -/
def wsCanon : List Char → Bool
  | [] => true
  | [c] => !isWs c || c == ' '
  | a :: b :: rest => (!isWs a || a == ' ') && !(isWs a && isWs b) && wsCanon (b :: rest)

/-- JS truthiness of an optional string field (`null`/`undefined`/`""` are falsy). -/
def jtruthy : Option String → Bool
  | none => false
  | some s => s != ""

/-- First-occurrence deduplication with an explicit seen accumulator;
this is the insertion-order semantics of `new Set(list)`. -/
def dedupSeen {α : Type} [DecidableEq α] : List α → List α → List α
  | _, [] => []
  | seen, x :: xs => if x ∈ seen then dedupSeen seen xs else x :: dedupSeen (x :: seen) xs

/-- Embedding of `uniq = (list) => [...new Set(list.filter(Boolean))]`,
generic over the element truthiness test. -/
def uniqBy {α : Type} [DecidableEq α] (truthy : α → Bool) (l : List α) : List α :=
  dedupSeen [] (l.filter truthy)

/-- `uniq` at string lists (the only falsy string is the empty string). -/
def uniq (l : List String) : List String := uniqBy (fun s => s != "") l

/-- The partial recipe record of main.js: the exact field set touched by
`mergeRecipe`.  Scalar fields are optional strings, list fields are string
lists (absent is the empty list), `nutrition` is an opaque optional blob. -/
structure Recipe where
  title : Option String := none
  author : Option String := none
  description : Option String := none
  prep_time : Option String := none
  cook_time : Option String := none
  total_time : Option String := none
  servings : Option String := none
  image_url : Option String := none
  cuisine : Option String := none
  category : Option String := none
  difficulty : Option String := none
  date_published : Option String := none
  rating_value : Option String := none
  rating_count : Option String := none
  rating_best : Option String := none
  rating_worst : Option String := none
  ingredients : List String := []
  instructions : List String := []
  tags : List String := []
  nutrition : Option String := none
deriving DecidableEq, Repr

/-- One scalar step of `mergeRecipe`:
`if (!merged[field] && extra[field]) merged[field] = extra[field]`. -/
def mergeScalar (base extra : Option String) : Option String :=
  if !jtruthy base && jtruthy extra then extra else base

/-- One list-field step of `mergeRecipe`:
`if (extra.f?.length) merged.f = uniq([...(merged.f || []), ...extra.f])`. -/
def mergeListField (base extra : List String) : List String :=
  if extra.length ≠ 0 then uniq (base ++ extra) else base

/-- Embedding of `mergeRecipe(base, extra)` from main.js.  The JS function
spreads `base` and then updates fields in sequence: each of the sixteen
scalar names of its `fields` array through the keep-truthy-base rule, the
three list fields through the uniq-union rule, and `nutrition` through its
guarded copy.  Every field is written at most once and each update reads
only the original `base`/`extra` values, so the sequence of updates equals
this simultaneous record; `nutrition` keeps its dedicated guard,
`extra.nutrition && !merged.nutrition`, which commutes to `mergeScalar`. -/
def mergeRecipe (base extra : Option Recipe) : Recipe :=
  match extra with
  | none => base.getD {}
  | some e =>
    let m := base.getD {}
    { title := mergeScalar m.title e.title
      author := mergeScalar m.author e.author
      description := mergeScalar m.description e.description
      prep_time := mergeScalar m.prep_time e.prep_time
      cook_time := mergeScalar m.cook_time e.cook_time
      total_time := mergeScalar m.total_time e.total_time
      servings := mergeScalar m.servings e.servings
      image_url := mergeScalar m.image_url e.image_url
      cuisine := mergeScalar m.cuisine e.cuisine
      category := mergeScalar m.category e.category
      difficulty := mergeScalar m.difficulty e.difficulty
      date_published := mergeScalar m.date_published e.date_published
      rating_value := mergeScalar m.rating_value e.rating_value
      rating_count := mergeScalar m.rating_count e.rating_count
      rating_best := mergeScalar m.rating_best e.rating_best
      rating_worst := mergeScalar m.rating_worst e.rating_worst
      ingredients := mergeListField m.ingredients e.ingredients
      instructions := mergeListField m.instructions e.instructions
      tags := mergeListField m.tags e.tags
      nutrition := if jtruthy e.nutrition && !jtruthy m.nutrition then e.nutrition
                   else m.nutrition }

/-- The seventeen optional scalar-valued fields of a record (the sixteen of
the `fields` array in `mergeRecipe` plus the separately handled `nutrition`). -/
def scalarGetters : List (Recipe → Option String) :=
  [ fun r => r.title, fun r => r.author, fun r => r.description,
    fun r => r.prep_time, fun r => r.cook_time, fun r => r.total_time,
    fun r => r.servings, fun r => r.image_url, fun r => r.cuisine,
    fun r => r.category, fun r => r.difficulty, fun r => r.date_published,
    fun r => r.rating_value, fun r => r.rating_count, fun r => r.rating_best,
    fun r => r.rating_worst, fun r => r.nutrition ]

/-- The PartialRecord invariant on one list-valued field: duplicate free and
without empty strings (extractor output is produced by `uniq` or by
`normalize`-then-filter, both of which guarantee this). -/
def goodList (l : List String) : Prop := l.Nodup ∧ ∀ s ∈ l, s ≠ ""

/-- The PartialRecord invariant of the specification, on the fields merging
treats as lists. -/
def goodRec (r : Recipe) : Prop :=
  goodList r.ingredients ∧ goodList r.instructions ∧ goodList r.tags

instance goodListDecidable (l : List String) : Decidable (goodList l) := by
  unfold goodList; infer_instance

instance goodRecDecidable (r : Recipe) : Decidable (goodRec r) := by
  unfold goodRec; infer_instance

/-! ### JSON value trees

`JSON.parse` output is modelled as a finite value tree.  A script block on a
page is an `Option Json`: `none` stands for an empty raw text or a parse
failure of `JSON.parse` (the `catch` branch), `some j` for a parsed value. -/

/-- A parsed JSON value. -/
inductive Json where
  | jnull
  | jbool (b : Bool)
  | jnum (n : Int)
  | jstr (s : String)
  | jarr (xs : List Json)
  | jobj (fields : List (String × Json))
deriving Repr

/-- Property access on an object field list: first binding of the key wins. -/
def jlookup : List (String × Json) → String → Option Json
  | [], _ => none
  | (k, v) :: rest, key => if k = key then some v else jlookup rest key

/-- Property access on an arbitrary value (`undefined` on non-objects,
as optional chaining yields in the source). -/
def jget (j : Json) (k : String) : Option Json :=
  match j with
  | .jobj fields => jlookup fields k
  | _ => none

/-- JS truthiness of a parsed JSON value (arrays and objects are truthy). -/
def jtruthyJson : Json → Bool
  | .jnull => false
  | .jbool b => b
  | .jnum n => n != 0
  | .jstr s => s != ""
  | .jarr _ => true
  | .jobj _ => true

/-- Embedding of `arrify(value)` from main.js. -/
def arrifyJ (j : Json) : List Json :=
  if !jtruthyJson j then [] else
  match j with
  | .jarr xs => xs
  | _ => [j]

/-- The nodes one parsed script block contributes in `parseJsonLdScripts`:
an array is spread, a `@graph` container is arrified, anything else is
pushed as a single node. -/
def nodesOfBlock (j : Json) : List Json :=
  match j with
  | .jarr xs => xs
  | _ =>
    match jget j "@graph" with
    | some g => if jtruthyJson g then arrifyJ g else [j]
    | none => [j]

/-- Embedding of `parseJsonLdScripts`: walk the script blocks in page order;
a block that is empty or fails `JSON.parse` (`none`) is skipped silently,
a parsed block contributes `nodesOfBlock`. -/
def parseJsonLdScripts : List (Option Json) → List Json
  | [] => []
  | none :: rest => parseJsonLdScripts rest
  | some j :: rest => nodesOfBlock j ++ parseJsonLdScripts rest

/-! ### The instruction-tree walker -/

/-- The result of the JS `normalize` helper on an arbitrary value:
`null`, a cleaned string, or (for array input) an array of results. -/
inductive NormVal where
  | vnull
  | vstr (s : String)
  | varr (xs : List NormVal)
deriving Repr

mutual

/-- Decidable equality for walker values (hand written because the nested
list occurrence defeats the deriving handler). -/
def nvDecEq : (a b : NormVal) → Decidable (a = b)
  | .vnull, .vnull => isTrue rfl
  | .vnull, .vstr _ => isFalse (fun h => NormVal.noConfusion h)
  | .vnull, .varr _ => isFalse (fun h => NormVal.noConfusion h)
  | .vstr _, .vnull => isFalse (fun h => NormVal.noConfusion h)
  | .vstr a, .vstr b =>
    match decEq a b with
    | isTrue h => isTrue (by rw [h])
    | isFalse h => isFalse (fun hh => h (by cases hh; rfl))
  | .vstr _, .varr _ => isFalse (fun h => NormVal.noConfusion h)
  | .varr _, .vnull => isFalse (fun h => NormVal.noConfusion h)
  | .varr _, .vstr _ => isFalse (fun h => NormVal.noConfusion h)
  | .varr xs, .varr ys =>
    match nvDecEqList xs ys with
    | isTrue h => isTrue (by rw [h])
    | isFalse h => isFalse (fun hh => h (by cases hh; rfl))
termination_by a b => sizeOf a

/-- Decidable equality on lists of walker values. -/
def nvDecEqList : (xs ys : List NormVal) → Decidable (xs = ys)
  | [], [] => isTrue rfl
  | [], _ :: _ => isFalse (fun h => List.noConfusion h)
  | _ :: _, [] => isFalse (fun h => List.noConfusion h)
  | x :: xs, y :: ys =>
    match nvDecEq x y with
    | isFalse h => isFalse (fun hh => h (by cases hh; rfl))
    | isTrue h =>
      match nvDecEqList xs ys with
      | isTrue h2 => isTrue (by rw [h, h2])
      | isFalse h2 => isFalse (fun hh => h2 (by cases hh; rfl))
termination_by xs ys => sizeOf xs

end

instance : DecidableEq NormVal := nvDecEq

/-- JS truthiness of a `normalize` result (an array is truthy even when empty). -/
def nvTruthy : NormVal → Bool
  | .vnull => false
  | .vstr s => s != ""
  | .varr _ => true

/-- Whether a walker step value is a plain string. -/
def isVstr : NormVal → Bool
  | .vstr _ => true
  | _ => false

/-- `normalize` applied to a primitive after JS `String(...)` coercion. -/
def normPrim (s : String) : NormVal :=
  match normStr s with
  | some t => .vstr t
  | none => .vnull

mutual

/-- Embedding of the `normalize` helper of main.js on a JSON value:
falsy input gives null, arrays are mapped and filtered, other values are
string-coerced, whitespace-collapsed and trimmed. -/
def normalizeJson : Json → NormVal
  | .jnull => .vnull
  | .jbool b => if b then normPrim "true" else .vnull
  | .jnum n => if n = 0 then .vnull else normPrim (toString n)
  | .jstr s => if s = "" then .vnull else normPrim s
  | .jarr xs => .varr (normalizeJsonList xs)
  | .jobj _ => normPrim "[object Object]"

/-- `value.map(normalize).filter(Boolean)` fused into one pass. -/
def normalizeJsonList : List Json → List NormVal
  | [] => []
  | x :: xs =>
    let v := normalizeJson x
    (if nvTruthy v then [v] else []) ++ normalizeJsonList xs

end

/-- The value chosen by `node.text || node.description` on an object node. -/
def textOrDescription (fields : List (String × Json)) : Option Json :=
  match jlookup fields "text" with
  | some t => if jtruthyJson t then some t else jlookup fields "description"
  | none => jlookup fields "description"

mutual

/-- Embedding of the recursive `walk` closure of `collectInstructionLines`:
the ordered list of values pushed onto `steps`.  Strings push their cleaned
form, arrays are walked elementwise, objects push the normalized
`text || description` value when truthy and then walk `itemListElement`.
There is no depth guard; termination is by structural size of the value. -/
def walkSteps : Json → List NormVal
  | .jnull => []
  | .jbool _ => []
  | .jnum _ => []
  | .jstr s =>
    if s = "" then [] else
    match normStr s with
    | some c => [.vstr c]
    | none => []
  | .jarr xs => walkStepsList xs
  | .jobj fields =>
    let pushed :=
      match textOrDescription fields with
      | some v =>
        if jtruthyJson v then
          let tx := normalizeJson v
          if nvTruthy tx then [tx] else []
        else []
      | none => []
    let rest :=
      match h : jlookup fields "itemListElement" with
      | some ile => if jtruthyJson ile then walkSteps ile else []
      | none => []
    pushed ++ rest
termination_by j => sizeOf j
decreasing_by
  all_goals simp_wf
  · have hsize : ∀ (fs : List (String × Json)) (key : String) (v : Json),
        jlookup fs key = some v → sizeOf v < sizeOf fs := by
      intro fs
      induction fs with
      | nil => intro key v hv; simp [jlookup] at hv
      | cons kv rest ih =>
        intro key v hv
        obtain ⟨k, w⟩ := kv
        by_cases hk : k = key
        · simp [jlookup, hk] at hv
          subst hv
          simp
          omega
        · simp [jlookup, hk] at hv
          have := ih key v hv
          simp
          omega
    have := hsize _ _ _ h
    omega

/-- `node.forEach(walk)` on an array node. -/
def walkStepsList : List Json → List NormVal
  | [] => []
  | x :: xs => walkSteps x ++ walkStepsList xs
termination_by l => sizeOf l
decreasing_by
  all_goals simp_wf <;> omega

end

/-- Embedding of `collectInstructionLines`: the walked steps, filtered for
truthiness and deduplicated in first-seen order (`uniq`). -/
def collectInstructionLines (j : Json) : List NormVal :=
  uniqBy nvTruthy (walkSteps j)

/-! ### URL resolution

`toAbs` wraps `new URL(href, base).href.split('#')[0]`.  The WHATWG URL
machinery is embedded for the http/https cases the scraper exercises:
absolute references, scheme-relative, path-absolute, query-only,
fragment-only and relative-path references.  Simplifications, each noted
against real URL semantics: no percent encoding, no dot-segment
normalization, no userinfo/port splitting, no case folding, and schemes
other than http/https are not recognized (such references would be
treated as relative paths by this model).  Inputs built from the site in
question never exercise those corners. -/

/-- The parsed components of an absolute http(s) URL.  All components are
character lists; `path` always begins with a slash in parser output. -/
structure UrlParts where
  scheme : List Char
  host : List Char
  path : List Char
  query : Option (List Char)
  frag : Option (List Char)
deriving DecidableEq, Repr

/-- Characters terminating the host component. -/
def stopHost : List Char := ['/', '?', '#']

/-- Characters terminating the path component. -/
def stopPath : List Char := ['?', '#']

/-- Split a character list at the first occurrence of any stop character:
returns the prefix before it and the remainder starting with it. -/
def splitAtAny (stops : List Char) : List Char → List Char × List Char
  | [] => ([], [])
  | c :: cs =>
    if c ∈ stops then ([], c :: cs)
    else
      let p := splitAtAny stops cs
      (c :: p.1, p.2)

/-- Parse the query/fragment tail of a URL (input is empty or starts with
a question mark or hash). -/
def parseQF (r : List Char) : Option (List Char) × Option (List Char) :=
  match r with
  | [] => (none, none)
  | c :: rest =>
    if c = '?' then
      let p := splitAtAny ['#'] rest
      match p.2 with
      | _ :: f => (some p.1, some f)
      | [] => (some p.1, none)
    else if c = '#' then (none, some rest)
    else (none, none)

/-- Parse a path-query-fragment suffix (input starts with a slash). -/
def parsePathQF (r : List Char) : List Char × Option (List Char) × Option (List Char) :=
  let p := splitAtAny stopPath r
  let qf := parseQF p.2
  (p.1, qf.1, qf.2)

/-- Parse `host[path][?query][#frag]` under a given scheme; an empty host is
a URL parse error (the constructor throws, `toAbs` returns null). -/
def parseAfterScheme (scheme : List Char) (rest : List Char) : Option UrlParts :=
  let hp := splitAtAny stopHost rest
  if hp.1 = [] then none
  else
    match hp.2 with
    | c :: r =>
      if c = '/' then
        let pqf := parsePathQF (c :: r)
        some ⟨scheme, hp.1, pqf.1, pqf.2.1, pqf.2.2⟩
      else
        let qf := parseQF (c :: r)
        some ⟨scheme, hp.1, ['/'], qf.1, qf.2⟩
    | [] => some ⟨scheme, hp.1, ['/'], none, none⟩

/-- Remove an expected literal prefix, returning the remainder. -/
def dropPre : List Char → List Char → Option (List Char)
  | [], l => some l
  | _ :: _, [] => none
  | p :: ps, c :: cs => if c = p then dropPre ps cs else none

/-- Parse an absolute http(s) URL string. -/
def parseUrlC (l : List Char) : Option UrlParts :=
  match dropPre "https://".data l with
  | some rest => parseAfterScheme "https".data rest
  | none =>
    match dropPre "http://".data l with
    | some rest => parseAfterScheme "http".data rest
    | none => none

/-- Whether the reference carries an http(s) scheme (in which case a failed
absolute parse is an error rather than a relative reference). -/
def hasHttpScheme (l : List Char) : Bool :=
  (dropPre "https://".data l).isSome || (dropPre "http://".data l).isSome

/-- The directory prefix of a path: everything up to and including the last
slash. -/
def dirOf (path : List Char) : List Char :=
  (path.reverse.dropWhile (fun c => c ≠ '/')).reverse

/-- Resolve a relative reference against a parsed base, following the
WHATWG case split: empty, scheme-relative, path-absolute, query-only,
fragment-only, and relative-path references. -/
def resolveRelC (href : List Char) (b : UrlParts) : Option UrlParts :=
  match href with
  | [] => some { b with frag := none }
  | c :: rest =>
    if c = '/' then
      match rest with
      | c2 :: rest2 =>
        if c2 = '/' then parseAfterScheme b.scheme rest2
        else
          let pqf := parsePathQF (c :: rest)
          some { b with path := pqf.1, query := pqf.2.1, frag := pqf.2.2 }
      | [] =>
        let pqf := parsePathQF (c :: rest)
        some { b with path := pqf.1, query := pqf.2.1, frag := pqf.2.2 }
    else if c = '?' then
      let qf := parseQF (c :: rest)
      some { b with query := qf.1, frag := qf.2 }
    else if c = '#' then some { b with frag := some rest }
    else
      let pqf := parsePathQF (dirOf b.path ++ (c :: rest))
      some { b with path := pqf.1, query := pqf.2.1, frag := pqf.2.2 }

/-- The serialized query part: a question mark plus the query, or empty. -/
def queryPart : Option (List Char) → List Char
  | some q => '?' :: q
  | none => []

/-- The serialized fragment part: a hash plus the fragment, or empty. -/
def fragPart : Option (List Char) → List Char
  | some f => '#' :: f
  | none => []

/-- Serialize parsed components back to the `.href` string form. -/
def serializeUrlC (u : UrlParts) : List Char :=
  u.scheme ++ "://".data ++ u.host ++ u.path ++ queryPart u.query ++ fragPart u.frag

/-- `new URL(href, base)` on character lists: absolute parse first,
otherwise relative resolution against the parsed base. -/
def resolveUrlC (href base : List Char) : Option UrlParts :=
  match parseUrlC href with
  | some u => some u
  | none =>
    if hasHttpScheme href then none
    else
      match parseUrlC base with
      | some b => resolveRelC href b
      | none => none

/-- Embedding of `toAbs(href, base)`: resolve, serialize, then
`split('#')[0]`. -/
def toAbsC (href base : List Char) : Option (List Char) :=
  match resolveUrlC href base with
  | none => none
  | some u => some (splitAtAny ['#'] (serializeUrlC u)).1

/-- `toAbs` on strings, with the default base of main.js. -/
def toAbs (href : String) (base : String := "https://www.epicurious.com") : Option String :=
  (toAbsC href.data base.data).map String.mk

/-- The part of a string before its first hash; two references differ only
by a URL fragment exactly when these agree. -/
def preFrag (s : String) : List Char := (splitAtAny ['#'] s.data).1

/-- Well-formedness of parsed components: what the parser guarantees and
serialization relies on for the round trip. -/
structure UrlWF (u : UrlParts) : Prop where
  host_ne : u.host ≠ []
  host_ok : ∀ c ∈ u.host, c ∉ stopHost
  path_slash : ∃ r, u.path = '/' :: r
  path_ok : ∀ c ∈ u.path, c ∉ stopPath
  query_ok : ∀ q, u.query = some q → '#' ∉ q
  scheme_ok : u.scheme = "http".data ∨ u.scheme = "https".data

/-- Serialization with the fragment dropped (what `toAbs` returns). -/
def serializeNoFragC (u : UrlParts) : List Char := serializeUrlC { u with frag := none }

/-- Agreement of two parses on everything except the fragment. -/
def noFragEq (u v : UrlParts) : Prop :=
  u.scheme = v.scheme ∧ u.host = v.host ∧ u.path = v.path ∧ u.query = v.query

/-! ### Listing-page link discovery -/

/-- Prefix test on character lists. -/
def startsWithC : List Char → List Char → Bool
  | [], _ => true
  | _ :: _, [] => false
  | p :: ps, c :: cs => p = c && startsWithC ps cs

/-- Substring occurrence test on character lists. -/
def containsSeq (pat : List Char) : List Char → Bool
  | [] => startsWithC pat []
  | c :: cs => startsWithC pat (c :: cs) || containsSeq pat cs

/-- JS `String.prototype.split` at a single separator character. -/
def splitOnCharC (sep : Char) : List Char → List (List Char)
  | [] => [[]]
  | c :: cs =>
    let r := splitOnCharC sep cs
    if c = sep then [] :: r
    else
      match r with
      | h :: t => (c :: h) :: t
      | [] => [[c]]

/-- The prefix of a string before its first occurrence of a separator:
JS `s.split(sep)[0]`. -/
def beforeChar (sep : Char) (s : String) : String :=
  String.mk ((splitOnCharC sep s.data).headD [])

/-- The detail-page path test `/\/recipes\/food\/views\//.test(url)`. -/
def hasViewsPath (s : String) : Bool := containsSeq "/recipes/food/views/".data s.data

/-- JS `String(...)` coercion of a JSON value, used where the source feeds
a possibly non-string property into `toAbs`.  Array coercion is
approximated by the empty string (real JS joins elements with commas);
list extraction only ever path-tests the result, so the approximation is
inert for the properties proved here. -/
def jsCoerce : Json → String
  | .jnull => "null"
  | .jbool b => if b then "true" else "false"
  | .jnum n => toString n
  | .jstr s => s
  | .jarr _ => ""
  | .jobj _ => "[object Object]"

/-- The `entry.url || entry.item?.url` chain of `extractListLinks`;
`none` models `undefined` (JS would then resolve the literal string
"undefined", which never passes the detail-path test). -/
def entryRawUrl (entry : Json) : Option Json :=
  match jget entry "url" with
  | some u => if jtruthyJson u then some u else (jget entry "item").bind (fun it => jget it "url")
  | none => (jget entry "item").bind (fun it => jget it "url")

/-- The `@type`/`type` dispatch plus ItemList test of `extractListLinks`. -/
def isItemListNode (node : Json) : Bool :=
  let ty :=
    match jget node "@type" with
    | some t => if jtruthyJson t then some t else jget node "type"
    | none => jget node "type"
  match ty with
  | some (.jstr s) => s = "ItemList"
  | some (.jarr xs) => xs.any (fun x => match x with | .jstr s => s = "ItemList" | _ => false)
  | _ => false

/-- Links contributed by the entries of one ItemList node. -/
def entryLinks (base : String) : List Json → List String
  | [] => []
  | entry :: rest =>
    let tail := entryLinks base rest
    match entryRawUrl entry with
    | some raw =>
      match toAbs (jsCoerce raw) base with
      | some url => if hasViewsPath url then url :: tail else tail
      | none => tail
    | none => tail

/-- Embedding of `extractListLinks(jsonNodes, base)`: URLs of the item
entries of every ItemList node, filtered by the detail-path pattern.
Neither query stripping nor the seen set is applied on this path. -/
def extractListLinksM (nodes : List Json) (base : String) : List String :=
  match nodes with
  | [] => []
  | node :: rest =>
    let tail := extractListLinksM rest base
    if !jtruthyJson node then tail
    else if isItemListNode node then
      (match jget node "itemListElement" with
       | some (.jarr entries) => entryLinks base entries ++ tail
       | _ => tail)
    else tail

/-- Insertion-ordered set add (`Set.prototype.add`). -/
def setAdd {α : Type} [DecidableEq α] (l : List α) (x : α) : List α :=
  if x ∈ l then l else l ++ [x]

/-- Embedding of the anchor loop of `findRecipeLinks`: walks the anchor
hrefs, resolves each against the page URL, keeps detail-path matches,
strips the whole query, and admits a URL only when the seen set does not
already hold it (the seen set itself is updated only on this markup path).
Returns the collected URLs (page-local set) and the updated seen set. -/
def findRecipeLinksGo (dedupe : Bool) (base : String) :
    List String → List String → List String → List String × List String
  | [], urls, seen => (urls, seen)
  | a :: rest, urls, seen =>
    match toAbs a base with
    | none => findRecipeLinksGo dedupe base rest urls seen
    | some abs =>
      if hasViewsPath abs then
        let clean := beforeChar '?' abs
        if !dedupe || clean ∉ seen then
          findRecipeLinksGo dedupe base rest (setAdd urls clean)
            (if dedupe then setAdd seen clean else seen)
        else findRecipeLinksGo dedupe base rest urls seen
      else findRecipeLinksGo dedupe base rest urls seen

/-- One LIST page admission round: JSON-LD links, then markup links, then
`uniq([...jsonLinks, ...htmlLinks])`.  Returns the combined admitted list
and the crawl-wide seen set after the page. -/
def listCombined (nodes : List Json) (anchors : List String) (base : String)
    (seen : List String) (dedupe : Bool) : List String × List String :=
  let jsonLinks := extractListLinksM nodes base
  let html := findRecipeLinksGo dedupe base anchors [] seen
  (uniq (jsonLinks ++ html.1), html.2)

/-! ### Alternate detail endpoints -/

/-- JS `replace(//$/, '')`: remove one trailing slash if present. -/
def dropTrailSlashC (l : List Char) : List Char :=
  match l.getLast? with
  | some '/' => l.dropLast
  | _ => l

/-- The `cleaned` URL of `buildAlternateDetailUrls`: query stripped,
a single trailing slash removed. -/
def cleanedOf (url : String) : String :=
  String.mk (dropTrailSlashC (beforeChar '?' url).data)

/-- Embedding of `buildAlternateDetailUrls`. -/
def buildAlternateDetailUrls (url : String) : List String :=
  let cleaned := cleanedOf url
  uniq [cleaned, cleaned ++ "?output=1", cleaned ++ "?page=all", cleaned ++ "/amp"]

/-! ### Budget accounting

The LIST/DETAIL handlers share the `saved` counter.  A DETAIL handler
checks the budget synchronously on entry but increments `saved` only after
awaited work, so with `maxConcurrency: 5` the check and the increment of
different tasks interleave; the model splits each detail task into a
`detailCheck` and a `detailCommit` event to capture exactly that.  A
sequential execution is the schedule where each check is immediately
followed by its commit. -/

/-- Crawl counters: `saved` (the JS variable), records emitted to the
dataset, detail tasks past the guard, and the guard-passed pending set. -/
structure CrawlSt where
  saved : Nat
  emitted : Nat
  pending : List Nat
  detailFetches : Nat
deriving DecidableEq, Repr

/-- Scheduler events: a listing page with `k` combined candidates, a detail
task entering its budget guard, and a detail task completing. -/
inductive CrawlEv where
  | listPage (k : Nat) (collectDetails : Bool)
  | detailCheck (i : Nat)
  | detailCommit (i : Nat)
deriving DecidableEq, Repr

/-- `limited.length` of the LIST branch:
`remaining < combined.length ? combined.slice(0, remaining) : combined`.
Per ECMA-262 `Array.prototype.slice(0, end)` the end index is clamped by
`final = end < 0 ? max(len + end, 0) : min(end, len)`, so a negative
`remaining` keeps all but the last `|remaining|` elements (it does NOT
slice to the empty list). -/
def limitedLen (rw saved k : Nat) : Nat :=
  if ((rw : Int) - (saved : Int)) < (k : Int) then
    (if ((rw : Int) - (saved : Int)) < 0 then (k : Int) + ((rw : Int) - (saved : Int))
     else (rw : Int) - (saved : Int)).toNat
  else k

/-- One scheduler step of the crawl, at budget `rw`. -/
def crawlStep (rw : Nat) (st : CrawlSt) : CrawlEv → CrawlSt
  | .listPage k cd =>
    let L := limitedLen rw st.saved k
    if cd then st
    else { st with saved := st.saved + L, emitted := st.emitted + L }
  | .detailCheck i =>
    if st.saved ≥ rw then st
    else { st with pending := st.pending ++ [i], detailFetches := st.detailFetches + 1 }
  | .detailCommit i =>
    if i ∈ st.pending then
      { st with saved := st.saved + 1, emitted := st.emitted + 1,
                pending := st.pending.erase i }
    else st

/-- Run a schedule from the initial crawl state. -/
def crawlRun (rw : Nat) (evs : List CrawlEv) : CrawlSt :=
  evs.foldl (crawlStep rw) ⟨0, 0, [], 0⟩

/-! ### Pagination -/

/-- The next-page enqueue decision of the LIST handler:
`if (saved < RESULTS_WANTED && pageNo < MAX_PAGES)` and a next link found. -/
def nextListPage (rw mp saved pageNo : Nat) (next : Option String) : Option (String × Nat) :=
  if saved < rw ∧ pageNo < mp then
    match next with
    | some u => some (u, pageNo + 1)
    | none => none
  else none

/-- Reachability of a listing page number: the crawl starts at page 1 and a
page n+1 is visited only if page n was visited, n is below `maxPages`, and
the page-n guard (budget remaining and a next link present) held. -/
inductive ReachPage (mp : Nat) (canGo : Nat → Prop) : Nat → Prop where
  | start : ReachPage mp canGo 1
  | step (n : Nat) : ReachPage mp canGo n → n < mp → canGo n → ReachPage mp canGo (n + 1)

/-! ### Emitted titles -/

/-- JS `url.split('/').pop()`. -/
def lastSeg (u : String) : String := String.mk ((splitOnCharC '/' u.data).getLastD [])

/-- JS `replace(/[-]/g, ' ')` (hyphen to space, written with a bracket
class here to keep comment delimiters balanced). -/
def deHyphen (s : String) : String :=
  String.mk (s.data.map (fun c => if c = '-' then ' ' else c))

/-- `normalize(url.split('/').pop()?.replace(/[-]/g, ' ')) || dflt`: the
locator-derived slug title with its literal fallback. -/
def slugFallback (u : String) (dflt : String) : String :=
  match normStr (deHyphen (lastSeg u)) with
  | some t => t
  | none => dflt

/-- The title of a record emitted on the DETAIL path: the merged title if
truthy, otherwise the slug fallback with default "Untitled Recipe". -/
def detailTitle (t : Option String) (url : String) : String :=
  match t with
  | some s => if s = "" then slugFallback url "Untitled Recipe" else s
  | none => slugFallback url "Untitled Recipe"

/-- The title of a minimal record emitted on the URLs-only LIST path. -/
def listRecordTitle (u : String) : String := slugFallback u "Recipe"

/-! ### Depth truncation (for the depth-guard question) -/

/-- Modelled from the spec: the claimed depth guard of the instruction
walker.  A walker whose recursion is bounded by depth D can only depend on
the input up to depth D; `jtruncate D` erases everything below that depth,
so a guard with bound D would make the walker factor through
`jtruncate D`.  No such guard exists in the source; this definition exists
only to state and refute the bounded-recursion clause. -/
def jtruncate : Nat → Json → Json
  | 0, _ => .jnull
  | d + 1, .jarr xs => .jarr (xs.map (jtruncate d))
  | d + 1, .jobj fs => .jobj (fs.map (fun kv => (kv.1, jtruncate d kv.2)))
  | _ + 1, j => j

/-- Arrays nested n deep around a value. -/
def nestArr : Nat → Json → Json
  | 0, x => x
  | n + 1, x => .jarr [nestArr n x]

/-! ## Library lemmas on deduplication and normalization -/

theorem mem_dedupSeen {α : Type} [DecidableEq α] :
    ∀ (l seen : List α) (x : α), x ∈ dedupSeen seen l ↔ x ∈ l ∧ x ∉ seen := by
  intro l
  induction l with
  | nil => intro seen x; simp [dedupSeen]
  | cons a l ih =>
    intro seen x
    by_cases ha : a ∈ seen
    · simp only [dedupSeen, if_pos ha, ih, List.mem_cons]
      constructor
      · rintro ⟨hx, hns⟩; exact ⟨Or.inr hx, hns⟩
      · rintro ⟨hx | hx, hns⟩
        · exact absurd (hx ▸ ha) hns
        · exact ⟨hx, hns⟩
    · simp only [dedupSeen, if_neg ha, List.mem_cons, ih]
      constructor
      · rintro (rfl | ⟨hx, hns⟩)
        · exact ⟨Or.inl rfl, ha⟩
        · refine ⟨Or.inr hx, fun hs => hns (by simp [hs])⟩
      · rintro ⟨rfl | hx, hns⟩
        · exact Or.inl rfl
        · by_cases hxa : x = a
          · exact Or.inl hxa
          · exact Or.inr ⟨hx, by simp [hxa, hns]⟩

theorem nodup_dedupSeen {α : Type} [DecidableEq α] :
    ∀ (l seen : List α), (dedupSeen seen l).Nodup := by
  intro l
  induction l with
  | nil => intro seen; simp [dedupSeen]
  | cons a l ih =>
    intro seen
    by_cases ha : a ∈ seen
    · simpa [dedupSeen, if_pos ha] using ih seen
    · simp only [dedupSeen, if_neg ha]
      refine List.Nodup.cons ?_ (ih (a :: seen))
      intro hmem
      exact ((mem_dedupSeen l (a :: seen) a).1 hmem).2 (List.mem_cons_self a seen)

theorem dedupSeen_eats {α : Type} [DecidableEq α] :
    ∀ (l seen : List α), (∀ x ∈ l, x ∈ seen) → dedupSeen seen l = [] := by
  intro l
  induction l with
  | nil => intro seen _; rfl
  | cons a l ih =>
    intro seen h
    have ha : a ∈ seen := h a (List.mem_cons_self a l)
    simpa [dedupSeen, if_pos ha] using ih seen (fun x hx => h x (List.mem_cons_of_mem _ hx))

theorem dedupSeen_append_absorb {α : Type} [DecidableEq α] :
    ∀ (l1 l2 seen : List α), l1.Nodup → (∀ x ∈ l1, x ∉ seen) →
      (∀ x ∈ l2, x ∈ l1 ∨ x ∈ seen) → dedupSeen seen (l1 ++ l2) = l1 := by
  intro l1
  induction l1 with
  | nil =>
    intro l2 seen _ _ h2
    simpa using dedupSeen_eats l2 seen (fun x hx => (h2 x hx).resolve_left (by simp))
  | cons a l1 ih =>
    intro l2 seen hnd hns h2
    have ha : a ∉ seen := hns a (List.mem_cons_self a l1)
    simp only [List.cons_append, dedupSeen, if_neg ha]
    congr 1
    refine ih l2 (a :: seen) (List.Nodup.of_cons hnd) ?_ ?_
    · intro x hx
      simp only [List.mem_cons, not_or]
      exact ⟨fun hxa => (List.nodup_cons.1 hnd).1 (hxa ▸ hx), hns x (List.mem_cons_of_mem _ hx)⟩
    · intro x hx
      rcases h2 x hx with hx1 | hx1
      · rcases List.mem_cons.1 hx1 with rfl | hx1
        · exact Or.inr (List.mem_cons_self x seen)
        · exact Or.inl hx1
      · exact Or.inr (List.mem_cons_of_mem _ hx1)

theorem mem_uniqBy {α : Type} [DecidableEq α] (t : α → Bool) (l : List α) (x : α) :
    x ∈ uniqBy t l ↔ x ∈ l ∧ t x = true := by
  simp [uniqBy, mem_dedupSeen, List.mem_filter]

theorem nodup_uniqBy {α : Type} [DecidableEq α] (t : α → Bool) (l : List α) :
    (uniqBy t l).Nodup := nodup_dedupSeen _ _

theorem uniqBy_eq_self {α : Type} [DecidableEq α] (t : α → Bool) (l : List α)
    (hnd : l.Nodup) (ht : ∀ x ∈ l, t x = true) : uniqBy t l = l := by
  unfold uniqBy
  rw [List.filter_eq_self.2 ht]
  simpa using dedupSeen_append_absorb l [] [] hnd (by simp) (by simp)

theorem mem_uniq (l : List String) (x : String) : x ∈ uniq l ↔ x ∈ l ∧ x ≠ "" := by
  simp [uniq, mem_uniqBy]

theorem nodup_uniq (l : List String) : (uniq l).Nodup := nodup_uniqBy _ _

theorem uniq_eq_self (l : List String) (h : goodList l) : uniq l = l :=
  uniqBy_eq_self _ _ h.1 (fun x hx => by simpa using h.2 x hx)

theorem uniq_append_self (l : List String) (h : goodList l) : uniq (l ++ l) = l := by
  unfold uniq uniqBy
  rw [List.filter_append,
    List.filter_eq_self.2 (fun x hx => by simpa using h.2 x hx)]
  exact dedupSeen_append_absorb l l [] h.1 (by simp) (by simp)

/-! ## Merge lemmas -/

theorem mergeScalar_of_truthy (b e : Option String) (h : jtruthy b = true) :
    mergeScalar b e = b := by
  simp [mergeScalar, h]

theorem jtruthy_mergeScalar (b e : Option String)
    (h : jtruthy b = true ∨ jtruthy e = true) : jtruthy (mergeScalar b e) = true := by
  by_cases hb : jtruthy b = true
  · simp [mergeScalar, hb]
  · have hb' : jtruthy b = false := by simpa using hb
    have he : jtruthy e = true := h.resolve_left hb
    simp [mergeScalar, hb', he]

theorem mergeScalar_self (x : Option String) : mergeScalar x x = x := by
  by_cases hx : jtruthy x = true <;> simp_all [mergeScalar]

theorem mergeListField_eq_uniq (b e : List String) (hb : goodList b) :
    mergeListField b e = uniq (b ++ e) := by
  unfold mergeListField
  by_cases he : e.length ≠ 0
  · simp [he]
  · simp only [ne_eq, not_not, List.length_eq_zero] at he
    subst he
    simp [if_neg, uniq_eq_self b hb]

theorem mergeListField_self (l : List String) (h : goodList l) :
    mergeListField l l = l := by
  unfold mergeListField
  by_cases hl : l.length ≠ 0
  · simp only [if_pos hl]
    exact uniq_append_self l h
  · simp only [ne_eq, not_not, List.length_eq_zero] at hl
    subst hl
    rfl

theorem mergeRecipe_nutrition (a b : Recipe) :
    (mergeRecipe (some a) (some b)).nutrition = mergeScalar a.nutrition b.nutrition := by
  simp [mergeRecipe, mergeScalar, Bool.and_comm]

/-- C1: for partial records A and B (whose list fields satisfy the
PartialRecord invariant), merge keeps every truthy scalar field of either
side, resolves scalar conflicts to the A side, produces for every list
field exactly the deduplicated union with the A elements first, and never
drops a field or list element already present in A. -/
theorem c1_merge_union (A B : Recipe) (hA : goodRec A) (hB : goodRec B) :
    (∀ g ∈ scalarGetters,
      (jtruthy (g A) = true ∨ jtruthy (g B) = true →
        jtruthy (g (mergeRecipe (some A) (some B))) = true) ∧
      (jtruthy (g A) = true → g (mergeRecipe (some A) (some B)) = g A)) ∧
    (mergeRecipe (some A) (some B)).ingredients = uniq (A.ingredients ++ B.ingredients) ∧
    (mergeRecipe (some A) (some B)).instructions = uniq (A.instructions ++ B.instructions) ∧
    (mergeRecipe (some A) (some B)).tags = uniq (A.tags ++ B.tags) ∧
    (∀ x, x ∈ (mergeRecipe (some A) (some B)).ingredients ↔
      x ∈ A.ingredients ∨ x ∈ B.ingredients) ∧
    (∀ x, x ∈ (mergeRecipe (some A) (some B)).instructions ↔
      x ∈ A.instructions ∨ x ∈ B.instructions) ∧
    (∀ x, x ∈ (mergeRecipe (some A) (some B)).tags ↔ x ∈ A.tags ∨ x ∈ B.tags) := by
  obtain ⟨hAi, hAs, hAt⟩ := hA
  obtain ⟨hBi, hBs, hBt⟩ := hB
  have hing : (mergeRecipe (some A) (some B)).ingredients =
      uniq (A.ingredients ++ B.ingredients) := mergeListField_eq_uniq _ _ hAi
  have hins : (mergeRecipe (some A) (some B)).instructions =
      uniq (A.instructions ++ B.instructions) := mergeListField_eq_uniq _ _ hAs
  have htg : (mergeRecipe (some A) (some B)).tags =
      uniq (A.tags ++ B.tags) := mergeListField_eq_uniq _ _ hAt
  have hmem : ∀ (la lb : List String), goodList la → goodList lb →
      ∀ x, x ∈ uniq (la ++ lb) ↔ x ∈ la ∨ x ∈ lb := by
    intro la lb ha hb x
    rw [mem_uniq, List.mem_append]
    constructor
    · exact And.left
    · intro hx
      refine ⟨hx, ?_⟩
      rcases hx with hx | hx
      · exact ha.2 x hx
      · exact hb.2 x hx
  refine ⟨?_, hing, hins, htg, ?_, ?_, ?_⟩
  · intro g hg
    simp only [scalarGetters, List.mem_cons, List.not_mem_nil, or_false] at hg
    rcases hg with rfl | rfl | rfl | rfl | rfl | rfl | rfl | rfl | rfl | rfl | rfl | rfl |
      rfl | rfl | rfl | rfl | rfl
    all_goals dsimp only
    all_goals
      first
      | exact ⟨fun h => jtruthy_mergeScalar _ _ h, fun h => mergeScalar_of_truthy _ _ h⟩
      | (rw [mergeRecipe_nutrition]
         exact ⟨fun h => jtruthy_mergeScalar _ _ h, fun h => mergeScalar_of_truthy _ _ h⟩)
  · intro x
    rw [hing]
    exact hmem _ _ ⟨hAi.1, hAi.2⟩ ⟨hBi.1, hBi.2⟩ x
  · intro x
    rw [hins]
    exact hmem _ _ ⟨hAs.1, hAs.2⟩ ⟨hBs.1, hBs.2⟩ x
  · intro x
    rw [htg]
    exact hmem _ _ ⟨hAt.1, hAt.2⟩ ⟨hBt.1, hBt.2⟩ x

/-- Witness for C1 at a concrete pair of records. -/
theorem c1_merge_union_witness :
    goodRec ({ title := some "Pasta", ingredients := ["salt", "oil"] } : Recipe) ∧
    goodRec ({ title := some "Other", ingredients := ["oil", "basil"],
               nutrition := some "cal" } : Recipe) ∧
    ((∀ g ∈ scalarGetters,
      (jtruthy (g ({ title := some "Pasta", ingredients := ["salt", "oil"] } : Recipe)) = true ∨
       jtruthy (g ({ title := some "Other", ingredients := ["oil", "basil"],
                     nutrition := some "cal" } : Recipe)) = true →
        jtruthy (g (mergeRecipe
          (some { title := some "Pasta", ingredients := ["salt", "oil"] })
          (some { title := some "Other", ingredients := ["oil", "basil"],
                  nutrition := some "cal" }))) = true) ∧
      (jtruthy (g ({ title := some "Pasta", ingredients := ["salt", "oil"] } : Recipe)) = true →
        g (mergeRecipe
          (some { title := some "Pasta", ingredients := ["salt", "oil"] })
          (some { title := some "Other", ingredients := ["oil", "basil"],
                  nutrition := some "cal" })) =
        g ({ title := some "Pasta", ingredients := ["salt", "oil"] } : Recipe))) ∧
    (mergeRecipe (some { title := some "Pasta", ingredients := ["salt", "oil"] })
        (some { title := some "Other", ingredients := ["oil", "basil"],
                nutrition := some "cal" })).ingredients =
      uniq ((["salt", "oil"] : List String) ++ ["oil", "basil"]) ∧
    (mergeRecipe (some { title := some "Pasta", ingredients := ["salt", "oil"] })
        (some { title := some "Other", ingredients := ["oil", "basil"],
                nutrition := some "cal" })).instructions =
      uniq (([] : List String) ++ []) ∧
    (mergeRecipe (some { title := some "Pasta", ingredients := ["salt", "oil"] })
        (some { title := some "Other", ingredients := ["oil", "basil"],
                nutrition := some "cal" })).tags = uniq (([] : List String) ++ []) ∧
    (∀ x, x ∈ (mergeRecipe (some { title := some "Pasta", ingredients := ["salt", "oil"] })
        (some { title := some "Other", ingredients := ["oil", "basil"],
                nutrition := some "cal" })).ingredients ↔
      x ∈ (["salt", "oil"] : List String) ∨ x ∈ (["oil", "basil"] : List String)) ∧
    (∀ x, x ∈ (mergeRecipe (some { title := some "Pasta", ingredients := ["salt", "oil"] })
        (some { title := some "Other", ingredients := ["oil", "basil"],
                nutrition := some "cal" })).instructions ↔
      x ∈ ([] : List String) ∨ x ∈ ([] : List String)) ∧
    (∀ x, x ∈ (mergeRecipe (some { title := some "Pasta", ingredients := ["salt", "oil"] })
        (some { title := some "Other", ingredients := ["oil", "basil"],
                nutrition := some "cal" })).tags ↔
      x ∈ ([] : List String) ∨ x ∈ ([] : List String))) :=
  ⟨by decide, by decide,
   c1_merge_union
     { title := some "Pasta", ingredients := ["salt", "oil"] }
     { title := some "Other", ingredients := ["oil", "basil"], nutrition := some "cal" }
     (by decide) (by decide)⟩

/-- C5 counterexample: a record whose list fields are duplicate free but
hold an empty string is not a fixed point of self-merge, because `uniq`
also filters falsy elements; the invariant stated by the claim
(duplicate-freeness alone) is therefore not enough. -/
theorem c5_counterexample :
    (({ ingredients := [""] } : Recipe).ingredients.Nodup ∧
      ({ ingredients := [""] } : Recipe).instructions.Nodup ∧
      ({ ingredients := [""] } : Recipe).tags.Nodup) ∧
    mergeRecipe (some ({ ingredients := [""] } : Recipe))
        (some ({ ingredients := [""] } : Recipe)) ≠
      ({ ingredients := [""] } : Recipe) := by
  refine ⟨by decide, ?_⟩
  decide

/-- C5 (amended): merge with null and self-merge are identities on every
record whose list fields are duplicate free and free of empty strings
(the full PartialRecord invariant, which extractor output satisfies). -/
theorem c5_merge_idempotent (R : Recipe) (hR : goodRec R) :
    mergeRecipe (some R) none = R ∧ mergeRecipe (some R) (some R) = R := by
  obtain ⟨hi, hs, ht⟩ := hR
  refine ⟨rfl, ?_⟩
  cases R with
  | mk t a d p c tt sv iu cu cat dif dp rv rc rb rw ing ins tg nut =>
    simp only [mergeRecipe, Option.getD_some]
    simp [mergeScalar_self, mergeListField_self _ hi, mergeListField_self _ hs,
      mergeListField_self _ ht]

/-! ## Emitted titles (C7) -/

theorem normStr_ne_empty (s t : String) (h : normStr s = some t) : t ≠ "" := by
  dsimp only [normStr] at h
  split at h
  · exact Option.noConfusion h
  · rename_i hne
    cases h
    exact hne

theorem slugFallback_ne_empty (u dflt : String) (hd : dflt ≠ "") :
    slugFallback u dflt ≠ "" := by
  unfold slugFallback
  split
  · rename_i t ht
    exact normStr_ne_empty _ t ht
  · exact hd

/-- C7: every emitted record carries a non-empty title.  On the DETAIL path
a falsy extracted title falls back to the locator slug (with the literal
"Untitled Recipe" default), and on the URLs-only LIST path the minimal
record title is the slug with the literal "Recipe" default; both are never
empty. -/
theorem c7_title_nonempty :
    (∀ (t : Option String) (url : String), detailTitle t url ≠ "") ∧
    (∀ u : String, listRecordTitle u ≠ "") ∧
    (∀ url : String, detailTitle none url = slugFallback url "Untitled Recipe") := by
  refine ⟨?_, ?_, fun _ => rfl⟩
  · intro t url
    match t with
    | none => exact slugFallback_ne_empty _ _ (by decide)
    | some s =>
      by_cases hs : s = ""
      · simpa [detailTitle, hs] using slugFallback_ne_empty url "Untitled Recipe" (by decide)
      · simpa [detailTitle, hs] using hs
  · intro u
    exact slugFallback_ne_empty _ _ (by decide)

/-! ## Alternate detail endpoints (C8) -/

theorem string_length_zero (s : String) (hz : s.length = 0) : s = "" := by
  cases s with
  | mk d =>
    cases d with
    | nil => rfl
    | cons a l => simp [String.length] at hz

theorem append_ne_of_ne_empty (c s : String) (hs : s ≠ "") : c ++ s ≠ c := by
  intro h
  have hlen := congrArg String.length h
  rw [String.length_append] at hlen
  exact hs (string_length_zero s (by omega))

theorem append_left_cancel_ne (c s t : String) (hst : s ≠ t) : c ++ s ≠ c ++ t := by
  intro h
  rw [String.ext_iff, String.data_append, String.data_append] at h
  exact hst (by rw [String.ext_iff]; exact List.append_cancel_left h)

/-- C8: the alternate-endpoint list is a pure function of the locator that
produces, in this fixed order, the canonical bare URL, the print variant
`?output=1`, the single-page variant `?page=all` and the AMP variant
`/amp`, deduplicated; for every locator with a non-empty cleaned form the
four transforms are pairwise distinct, so the list is exactly these four
in order and duplicate free. -/
theorem c8_alternates (url : String) (h : cleanedOf url ≠ "") :
    buildAlternateDetailUrls url =
      [cleanedOf url, cleanedOf url ++ "?output=1", cleanedOf url ++ "?page=all",
        cleanedOf url ++ "/amp"] ∧
    (buildAlternateDetailUrls url).Nodup := by
  have h1 : cleanedOf url ++ "?output=1" ≠ cleanedOf url :=
    append_ne_of_ne_empty _ _ (by decide)
  have h2 : cleanedOf url ++ "?page=all" ≠ cleanedOf url :=
    append_ne_of_ne_empty _ _ (by decide)
  have h3 : cleanedOf url ++ "/amp" ≠ cleanedOf url :=
    append_ne_of_ne_empty _ _ (by decide)
  have h12 : cleanedOf url ++ "?output=1" ≠ cleanedOf url ++ "?page=all" :=
    append_left_cancel_ne _ _ _ (by decide)
  have h13 : cleanedOf url ++ "?output=1" ≠ cleanedOf url ++ "/amp" :=
    append_left_cancel_ne _ _ _ (by decide)
  have h23 : cleanedOf url ++ "?page=all" ≠ cleanedOf url ++ "/amp" :=
    append_left_cancel_ne _ _ _ (by decide)
  have happ : ∀ (c s : String), s ≠ "" → c ++ s ≠ "" := by
    intro c s hs hx
    rw [String.ext_iff, String.data_append] at hx
    have hdata : s.data = [] := (List.append_eq_nil.1 hx).2
    exact hs (String.ext_iff.2 (by simp [hdata]))
  have hne1 : (cleanedOf url ++ "?output=1") ≠ "" := happ _ _ (by decide)
  have hne2 : (cleanedOf url ++ "?page=all") ≠ "" := happ _ _ (by decide)
  have hne3 : (cleanedOf url ++ "/amp") ≠ "" := happ _ _ (by decide)
  constructor
  · show uniq _ = _
    unfold uniq uniqBy
    rw [List.filter_eq_self.2 (by
      intro x hx
      simp only [List.mem_cons, List.not_mem_nil, or_false] at hx
      rcases hx with rfl | rfl | rfl | rfl <;> simp [h, hne1, hne2, hne3])]
    simp [dedupSeen, h1, h2, h3, h12, h13, h23, Ne.symm h12, Ne.symm h13, Ne.symm h23]
  · rw [show buildAlternateDetailUrls url = uniq _ from rfl]
    exact nodup_uniq _

/-- Witness for C8 at a concrete locator (with query and trailing slash). -/
theorem c8_alternates_witness :
    cleanedOf "https://www.epicurious.com/recipes/food/views/tart/?utm=1" ≠ "" ∧
    (buildAlternateDetailUrls "https://www.epicurious.com/recipes/food/views/tart/?utm=1" =
      [cleanedOf "https://www.epicurious.com/recipes/food/views/tart/?utm=1",
        cleanedOf "https://www.epicurious.com/recipes/food/views/tart/?utm=1" ++ "?output=1",
        cleanedOf "https://www.epicurious.com/recipes/food/views/tart/?utm=1" ++ "?page=all",
        cleanedOf "https://www.epicurious.com/recipes/food/views/tart/?utm=1" ++ "/amp"] ∧
      (buildAlternateDetailUrls
        "https://www.epicurious.com/recipes/food/views/tart/?utm=1").Nodup) :=
  ⟨by decide, c8_alternates "https://www.epicurious.com/recipes/food/views/tart/?utm=1"
    (by decide)⟩

/-! ## Budget accounting (C3) -/

/-- C3 under the code as written: the budget can be exceeded.  The DETAIL
handler checks `saved >= RESULTS_WANTED` synchronously on entry but
increments `saved` only after awaited work, and the crawler runs up to
five handlers concurrently, so two tasks that both pass the check before
either commits will both emit; with `resultsWanted = 1` the schedule
check-check-commit-commit emits two records.  The true sub-claims are
also recorded, with the listing slice modelled by the ECMA semantics of
`slice(0, remaining)`: while `saved` has not passed the budget the
listing page emits or enqueues exactly `min remaining combined.length`
candidates (so never more than the remaining budget); once `saved`
exceeds the budget by `e + 1`, `remaining` is negative and a later
listing page still slices to `combined.length - (e + 1)` candidates --
all but the last `|remaining|` -- rather than none, amplifying the
overrun; a detail task entering with an exhausted budget is a no-op; and
the sequential URLs-only scenario with `resultsWanted = 5` and twenty
candidates emits exactly five records with no detail fetch. -/
theorem c3_budget_overrun :
    (crawlRun 1 [CrawlEv.detailCheck 1, CrawlEv.detailCheck 2,
        CrawlEv.detailCommit 1, CrawlEv.detailCommit 2]).emitted = 2 ∧
    (∀ saved d k : Nat, limitedLen (saved + d) saved k = min d k) ∧
    (∀ rw e k : Nat, limitedLen rw (rw + e + 1) k = k - (e + 1)) ∧
    (∀ (rw d i e f : Nat) (p : List Nat),
      crawlStep rw ⟨rw + d, e, p, f⟩ (CrawlEv.detailCheck i) = ⟨rw + d, e, p, f⟩) ∧
    ((crawlRun 5 [CrawlEv.listPage 20 false]).emitted = 5 ∧
      (crawlRun 5 [CrawlEv.listPage 20 false]).detailFetches = 0) := by
  refine ⟨by decide, ?_, ?_, ?_, by decide, by decide⟩
  · intro saved d k
    unfold limitedLen
    split
    · split <;> omega
    · omega
  · intro rw e k
    unfold limitedLen
    split
    · split <;> omega
    · omega
  · intro rw d i e f p
    simp [crawlStep, Nat.le_add_right]

/-! ## Pagination bound (C6) -/

/-- C6: listing traversal never reaches a page number above `maxPages`:
a next listing page is enqueued only under `pageNo < MAX_PAGES` (with the
budget guard) and carries page number `pageNo + 1`, so every reachable
page number stays at most `maxPages`; with `maxPages = 1` every reachable
page is page 1 regardless of budget or next links. -/
theorem c6_pagination (mp : Nat) (canGo : Nat → Prop) (hmp : 1 ≤ mp) :
    (∀ n, ReachPage mp canGo n → n ≤ mp) ∧
    (∀ (rw saved n : Nat) (nxt : Option String) (u : String) (m : Nat),
      nextListPage rw mp saved n nxt = some (u, m) → n < mp ∧ m = n + 1) ∧
    (∀ (canGo1 : Nat → Prop) (n : Nat), ReachPage 1 canGo1 n → n = 1) := by
  refine ⟨?_, ?_, ?_⟩
  · intro n h
    induction h with
    | start => exact hmp
    | step n hr hlt hc ih => omega
  · intro rw saved n nxt u m h
    unfold nextListPage at h
    split at h
    · rename_i hcond
      cases nxt with
      | some v => cases h; exact ⟨hcond.2, rfl⟩
      | none => exact Option.noConfusion h
    · exact Option.noConfusion h
  · intro canGo1 n h
    induction h with
    | start => rfl
    | step n hr hlt hc ih => omega

/-- Witness for C6 with `maxPages = 1`. -/
theorem c6_pagination_witness :
    (1 : Nat) ≤ 1 ∧
    ((∀ n, ReachPage 1 (fun _ => True) n → n ≤ 1) ∧
      (∀ (rw saved n : Nat) (nxt : Option String) (u : String) (m : Nat),
        nextListPage rw 1 saved n nxt = some (u, m) → n < 1 ∧ m = n + 1) ∧
      (∀ (canGo1 : Nat → Prop) (n : Nat), ReachPage 1 canGo1 n → n = 1)) :=
  ⟨by decide, c6_pagination 1 (fun _ => True) (by decide)⟩

/-! ## Structured-metadata block resilience (C9) -/

/-- C9: the structured extractor returns exactly the flattened nodes of
the parseable blocks, and inserting a malformed (non-parseable) block
anywhere changes nothing: parse failures are absorbed per block and never
abort the extraction of the other blocks of the page. -/
theorem c9_jsonld_skip_malformed :
    (∀ blocks : List (Option Json),
      parseJsonLdScripts blocks = (blocks.filterMap id).flatMap nodesOfBlock) ∧
    (∀ pre post : List (Option Json),
      parseJsonLdScripts (pre ++ none :: post) = parseJsonLdScripts (pre ++ post)) := by
  constructor
  · intro blocks
    induction blocks with
    | nil => rfl
    | cons o rest ih =>
      cases o with
      | none => simpa [parseJsonLdScripts, List.filterMap_cons] using ih
      | some j => simp [parseJsonLdScripts, List.filterMap_cons, ih, List.flatMap_cons]
  · intro pre post
    induction pre with
    | nil => simp [parseJsonLdScripts]
    | cons o rest ih =>
      cases o with
      | none => simpa [parseJsonLdScripts] using ih
      | some j => simp [parseJsonLdScripts, ih]

/-! ## Listing admission and dedup (C2) -/

theorem mem_setAdd {α : Type} [DecidableEq α] (l : List α) (y x : α) :
    x ∈ setAdd l y ↔ x = y ∨ x ∈ l := by
  unfold setAdd
  split
  · rename_i hy
    constructor
    · exact Or.inr
    · rintro (rfl | hx)
      · exact hy
      · exact hx
  · simp [or_comm]

theorem nodup_setAdd {α : Type} [DecidableEq α] (l : List α) (y : α) (h : l.Nodup) :
    (setAdd l y).Nodup := by
  unfold setAdd
  split
  · exact h
  · rename_i hy
    simpa [List.nodup_append] using ⟨h, hy⟩

/-- Invariants of the markup admission loop with dedup on: every admitted
URL lands in the final seen set, the incoming seen set is preserved, an
admitted URL was either already collected or unseen before, and the
collected list stays duplicate free. -/
theorem frl_spec (base : String) :
    ∀ (anchors urls seen : List String),
      (∀ x ∈ urls, x ∈ seen) → urls.Nodup →
      (∀ x ∈ (findRecipeLinksGo true base anchors urls seen).1,
        x ∈ (findRecipeLinksGo true base anchors urls seen).2) ∧
      (∀ x ∈ seen, x ∈ (findRecipeLinksGo true base anchors urls seen).2) ∧
      (∀ x ∈ (findRecipeLinksGo true base anchors urls seen).1, x ∈ urls ∨ x ∉ seen) ∧
      (findRecipeLinksGo true base anchors urls seen).1.Nodup := by
  intro anchors
  induction anchors with
  | nil =>
    intro urls seen hsub hnd
    exact ⟨hsub, fun x hx => hx, fun x hx => Or.inl hx, hnd⟩
  | cons a rest ih =>
    intro urls seen hsub hnd
    show _ ∧ _ ∧ _ ∧ _
    unfold findRecipeLinksGo
    cases habs : toAbs a base with
    | none => exact ih urls seen hsub hnd
    | some abs =>
      simp only
      by_cases hview : hasViewsPath abs = true
      · simp only [if_pos hview]
        by_cases hseen : beforeChar '?' abs ∈ seen
        · have : (!true || decide (beforeChar '?' abs ∉ seen)) = false := by
            simp [hseen]
          rw [this]
          simp only [Bool.false_eq_true, if_false]
          exact ih urls seen hsub hnd
        · have : (!true || decide (beforeChar '?' abs ∉ seen)) = true := by
            simp [hseen]
          rw [this]
          simp only [if_true]
          have hsub2 : ∀ x ∈ setAdd urls (beforeChar '?' abs),
              x ∈ setAdd seen (beforeChar '?' abs) := by
            intro x hx
            rcases (mem_setAdd _ _ _).1 hx with rfl | hx
            · exact (mem_setAdd _ _ _).2 (Or.inl rfl)
            · exact (mem_setAdd _ _ _).2 (Or.inr (hsub x hx))
          have hnd2 : (setAdd urls (beforeChar '?' abs)).Nodup := nodup_setAdd _ _ hnd
          obtain ⟨i1, i2, i3, i4⟩ := ih (setAdd urls (beforeChar '?' abs))
            (setAdd seen (beforeChar '?' abs)) hsub2 hnd2
          refine ⟨i1, ?_, ?_, i4⟩
          · intro x hx
            exact i2 x ((mem_setAdd _ _ _).2 (Or.inr hx))
          · intro x hx
            rcases i3 x hx with hx1 | hx1
            · rcases (mem_setAdd _ _ _).1 hx1 with rfl | hx1
              · exact Or.inr hseen
              · exact Or.inl hx1
            · exact Or.inr (fun hs => hx1 ((mem_setAdd _ _ _).2 (Or.inr hs)))
      · simp only [if_neg hview]
        exact ih urls seen hsub hnd

/-- C2 counterexample to crawl-wide at-most-once admission: a locator
discovered through structured metadata is never recorded in the seen set,
so the identical listing metadata on two successive pages admits the same
locator twice (both page rounds return it in their combined list, with
dedup enabled throughout). -/
theorem c2_counterexample :
    (listCombined
      [Json.jobj [("@type", Json.jstr "ItemList"),
        ("itemListElement", Json.jarr
          [Json.jobj [("url", Json.jstr "https://www.epicurious.com/recipes/food/views/a")]])]]
      [] "https://www.epicurious.com" [] true).1 =
      ["https://www.epicurious.com/recipes/food/views/a"] ∧
    (listCombined
      [Json.jobj [("@type", Json.jstr "ItemList"),
        ("itemListElement", Json.jarr
          [Json.jobj [("url", Json.jstr "https://www.epicurious.com/recipes/food/views/a")]])]]
      []
      "https://www.epicurious.com"
      (listCombined
        [Json.jobj [("@type", Json.jstr "ItemList"),
          ("itemListElement", Json.jarr
            [Json.jobj [("url", Json.jstr "https://www.epicurious.com/recipes/food/views/a")]])]]
        [] "https://www.epicurious.com" [] true).2 true).1 =
      ["https://www.epicurious.com/recipes/food/views/a"] := by
  constructor <;> decide

/-- C2 (amended): within one listing page the admitted list is the
deduplicated union of the metadata-discovered and markup-discovered
locators (union, not sum, so twenty metadata locators overlapping fifteen
markup anchors admit exactly the twenty distinct ones); with dedup
enabled, markup-discovered locators are admitted at most once across the
whole crawl, because each enters the seen set on admission and unseen
membership is a precondition; metadata-discovered locators are
deduplicated only within the page round. -/
theorem c2_admission (nodes : List Json) (anchors : List String) (base : String)
    (seen : List String) (dedupe : Bool) (hd : dedupe = true) :
    (listCombined nodes anchors base seen dedupe).1.Nodup ∧
    (∀ x, x ∈ (listCombined nodes anchors base seen dedupe).1 ↔
      x ≠ "" ∧ (x ∈ extractListLinksM nodes base ∨
        x ∈ (findRecipeLinksGo dedupe base anchors [] seen).1)) ∧
    (∀ x ∈ (findRecipeLinksGo dedupe base anchors [] seen).1,
      x ∉ seen ∧ x ∈ (findRecipeLinksGo dedupe base anchors [] seen).2) ∧
    (∀ x ∈ seen, x ∈ (findRecipeLinksGo dedupe base anchors [] seen).2) := by
  subst hd
  obtain ⟨f1, f2, f3, f4⟩ := frl_spec base anchors [] seen (by simp) List.nodup_nil
  refine ⟨nodup_uniq _, ?_, ?_, f2⟩
  · intro x
    show x ∈ uniq _ ↔ _
    rw [mem_uniq, List.mem_append]
    tauto
  · intro x hx
    refine ⟨?_, f1 x hx⟩
    rcases f3 x hx with h | h
    · exact absurd h (List.not_mem_nil x)
    · exact h

/-- Witness for C2 at a concrete page: three metadata locators, two
overlapping markup anchors, five attempts, three admissions. -/
theorem c2_admission_witness :
    (true = true) ∧
    ((listCombined
        [Json.jobj [("@type", Json.jstr "ItemList"),
          ("itemListElement", Json.jarr
            [Json.jobj [("url", Json.jstr "https://www.epicurious.com/recipes/food/views/a")],
             Json.jobj [("url", Json.jstr "https://www.epicurious.com/recipes/food/views/b")],
             Json.jobj [("url", Json.jstr "https://www.epicurious.com/recipes/food/views/c")]])]]
        ["/recipes/food/views/a?ref=card", "/recipes/food/views/b"]
        "https://www.epicurious.com" [] true).1.Nodup ∧
      (∀ x, x ∈ (listCombined
        [Json.jobj [("@type", Json.jstr "ItemList"),
          ("itemListElement", Json.jarr
            [Json.jobj [("url", Json.jstr "https://www.epicurious.com/recipes/food/views/a")],
             Json.jobj [("url", Json.jstr "https://www.epicurious.com/recipes/food/views/b")],
             Json.jobj [("url", Json.jstr "https://www.epicurious.com/recipes/food/views/c")]])]]
        ["/recipes/food/views/a?ref=card", "/recipes/food/views/b"]
        "https://www.epicurious.com" [] true).1 ↔
        x ≠ "" ∧ (x ∈ extractListLinksM
          [Json.jobj [("@type", Json.jstr "ItemList"),
            ("itemListElement", Json.jarr
              [Json.jobj [("url", Json.jstr "https://www.epicurious.com/recipes/food/views/a")],
               Json.jobj [("url", Json.jstr "https://www.epicurious.com/recipes/food/views/b")],
               Json.jobj [("url", Json.jstr "https://www.epicurious.com/recipes/food/views/c")]])]]
          "https://www.epicurious.com" ∨
          x ∈ (findRecipeLinksGo true "https://www.epicurious.com"
            ["/recipes/food/views/a?ref=card", "/recipes/food/views/b"] [] []).1)) ∧
      (∀ x ∈ (findRecipeLinksGo true "https://www.epicurious.com"
          ["/recipes/food/views/a?ref=card", "/recipes/food/views/b"] [] []).1,
        x ∉ ([] : List String) ∧
        x ∈ (findRecipeLinksGo true "https://www.epicurious.com"
          ["/recipes/food/views/a?ref=card", "/recipes/food/views/b"] [] []).2) ∧
      (∀ x ∈ ([] : List String),
        x ∈ (findRecipeLinksGo true "https://www.epicurious.com"
          ["/recipes/food/views/a?ref=card", "/recipes/food/views/b"] [] []).2)) :=
  ⟨rfl,
   c2_admission
     [Json.jobj [("@type", Json.jstr "ItemList"),
       ("itemListElement", Json.jarr
         [Json.jobj [("url", Json.jstr "https://www.epicurious.com/recipes/food/views/a")],
          Json.jobj [("url", Json.jstr "https://www.epicurious.com/recipes/food/views/b")],
          Json.jobj [("url", Json.jstr "https://www.epicurious.com/recipes/food/views/c")]])]]
     ["/recipes/food/views/a?ref=card", "/recipes/food/views/b"]
     "https://www.epicurious.com" [] true rfl⟩

/-- Witness for C5 at a concrete record. -/
theorem c5_merge_idempotent_witness :
    goodRec ({ title := some "Soup", ingredients := ["salt"], tags := ["veg"] } : Recipe) ∧
    (mergeRecipe (some { title := some "Soup", ingredients := ["salt"], tags := ["veg"] })
        none = ({ title := some "Soup", ingredients := ["salt"], tags := ["veg"] } : Recipe) ∧
      mergeRecipe (some { title := some "Soup", ingredients := ["salt"], tags := ["veg"] })
        (some { title := some "Soup", ingredients := ["salt"], tags := ["veg"] }) =
        ({ title := some "Soup", ingredients := ["salt"], tags := ["veg"] } : Recipe)) :=
  ⟨by decide,
   c5_merge_idempotent { title := some "Soup", ingredients := ["salt"], tags := ["veg"] }
     (by decide)⟩

/-! ## Whitespace canonicalization (toward C10) -/

theorem allSpace_mapWs (l : List Char) : allSpace (mapWs l) = true := by
  induction l with
  | nil => rfl
  | cons c cs ih =>
    by_cases h : isWs c = true
    · simpa [mapWs, allSpace, h] using ih
    · have h' : isWs c = false := by simpa using h
      simpa [mapWs, allSpace, h'] using ih

theorem allSpace_tail (a : Char) (l : List Char) (h : allSpace (a :: l) = true) :
    allSpace l = true := by
  simp only [allSpace, List.all_cons, Bool.and_eq_true] at h
  exact h.2

theorem wsCanon_tail (a : Char) (l : List Char) (h : wsCanon (a :: l) = true) :
    wsCanon l = true := by
  cases l with
  | nil => rfl
  | cons b rest =>
    simp only [wsCanon, Bool.and_eq_true] at h
    exact h.2

theorem squeezeWs_canon :
    ∀ l : List Char, allSpace l = true →
      wsCanon (squeezeWs l) = true ∧
      (isWs ((squeezeWs l).headD 'x') = true → isWs (l.headD 'x') = true) := by
  intro l
  induction l with
  | nil => intro _; exact ⟨rfl, fun h => h⟩
  | cons a tail ih =>
    intro hall
    have hta : allSpace tail = true := allSpace_tail a tail hall
    have ha : (!isWs a || a == ' ') = true := by
      simp only [allSpace, List.all_cons, Bool.and_eq_true] at hall
      exact hall.1
    cases tail with
    | nil =>
      refine ⟨?_, fun h => h⟩
      simpa [squeezeWs, wsCanon] using ha
    | cons b rest =>
      obtain ⟨ihc, ihh⟩ := ih hta
      by_cases hab : (isWs a && isWs b) = true
      · rw [show squeezeWs (a :: b :: rest) = squeezeWs (b :: rest) from by
          simp [squeezeWs, hab]]
        refine ⟨ihc, fun _ => ?_⟩
        simp only [Bool.and_eq_true] at hab
        simpa using hab.1
      · rw [show squeezeWs (a :: b :: rest) = a :: squeezeWs (b :: rest) from by
          simp only [squeezeWs]
          rw [if_neg (by simpa [Bool.and_eq_true] using hab)]]
        constructor
        · cases hsq : squeezeWs (b :: rest) with
          | nil => simpa [wsCanon] using ha
          | cons h0 t0 =>
            have hc2 : wsCanon (h0 :: t0) = true := hsq ▸ ihc
            have hnadj : (isWs a && isWs h0) = false := by
              by_cases hwa : isWs a = true
              · by_cases hwh : isWs h0 = true
                · have : isWs ((squeezeWs (b :: rest)).headD 'x') = true := by
                    rw [hsq]; simpa using hwh
                  have hb : isWs b = true := by simpa using ihh this
                  exact absurd (by simp [hwa, hb] : (isWs a && isWs b) = true) hab
                · simp [hwh]
              · simp [Bool.eq_false_iff.2 hwa]
            simp only [wsCanon, Bool.and_eq_true]
            exact ⟨⟨by simpa using ha, by simpa using congrArg (!·) hnadj⟩, hc2⟩
        · intro h
          simpa using h

theorem wsCanon_collapse (l : List Char) : wsCanon (collapseWsC l) = true :=
  (squeezeWs_canon (mapWs l) (allSpace_mapWs l)).1

theorem wsCanon_allSpace : ∀ l : List Char, wsCanon l = true → allSpace l = true := by
  intro l
  induction l with
  | nil => intro _; rfl
  | cons a tail ih =>
    intro h
    have hta := wsCanon_tail a tail h
    have ha : (!isWs a || a == ' ') = true := by
      cases tail with
      | nil => simpa [wsCanon] using h
      | cons b rest =>
        simp only [wsCanon, Bool.and_eq_true] at h
        exact h.1.1
    simpa [allSpace, List.all_cons, ha] using ih hta

theorem mapWs_id (l : List Char) (h : allSpace l = true) : mapWs l = l := by
  induction l with
  | nil => rfl
  | cons c cs ih =>
    have hc : (!isWs c || c == ' ') = true := by
      simp only [allSpace, List.all_cons, Bool.and_eq_true] at h
      exact h.1
    have hcs := ih (allSpace_tail c cs h)
    by_cases hw : isWs c = true
    · have : c = ' ' := by
        rcases Bool.or_eq_true_iff.1 hc with h1 | h1
        · exact absurd hw (by simpa using h1)
        · simpa using h1
      simp [mapWs, hw, this, hcs, mapWs] at hcs ⊢
      exact hcs
    · have hw' : isWs c = false := by simpa using hw
      simpa [mapWs, hw', hcs] using hcs

theorem squeezeWs_id : ∀ l : List Char, wsCanon l = true → squeezeWs l = l := by
  intro l
  induction l with
  | nil => intro _; rfl
  | cons a tail ih =>
    intro h
    cases tail with
    | nil => rfl
    | cons b rest =>
      simp only [wsCanon, Bool.and_eq_true] at h
      have hnot := h.1.2
      have hfalse : (isWs a && isWs b) = false := by
        cases hq : (isWs a && isWs b) with
        | false => rfl
        | true => rw [hq] at hnot; exact absurd hnot (by decide)
      simp only [squeezeWs]
      rw [if_neg (by simp [hfalse])]
      rw [ih h.2]

theorem collapseWsC_id (l : List Char) (h : wsCanon l = true) : collapseWsC l = l := by
  unfold collapseWsC
  rw [mapWs_id l (wsCanon_allSpace l h), squeezeWs_id l h]

theorem wsCanon_append_left : ∀ x y : List Char, wsCanon (x ++ y) = true → wsCanon x = true := by
  intro x
  induction x with
  | nil => intro y _; rfl
  | cons a x2 ih =>
    intro y h
    cases x2 with
    | nil =>
      cases y with
      | nil => simpa using h
      | cons b ys =>
        simp only [List.cons_append, List.nil_append, wsCanon, Bool.and_eq_true] at h
        simpa [wsCanon] using h.1.1
    | cons b x3 =>
      simp only [List.cons_append, wsCanon, Bool.and_eq_true] at h ⊢
      refine ⟨h.1, ?_⟩
      exact ih y (by simpa using h.2)

theorem wsCanon_dropWhile (l : List Char) (h : wsCanon l = true) :
    wsCanon (l.dropWhile isWs) = true := by
  induction l with
  | nil => rfl
  | cons a tail ih =>
    by_cases hw : isWs a = true
    · rw [List.dropWhile_cons_of_pos (by simpa using hw)]
      exact ih (wsCanon_tail a tail h)
    · rw [List.dropWhile_cons_of_neg (by simpa using hw)]
      exact h

theorem trimRightC_prefix : ∀ l : List Char, ∃ t, l = trimRightC l ++ t := by
  intro l
  induction l with
  | nil => exact ⟨[], rfl⟩
  | cons c cs ih =>
    obtain ⟨t, ht⟩ := ih
    cases hr : trimRightC cs with
    | nil =>
      by_cases hw : isWs c = true
      · refine ⟨c :: cs, ?_⟩
        simp [trimRightC, hr, hw]
      · refine ⟨cs, ?_⟩
        have hw' : isWs c = false := by simpa using hw
        simp [trimRightC, hr, hw']
    | cons h0 t0 =>
      refine ⟨t, ?_⟩
      have : trimRightC (c :: cs) = c :: trimRightC cs := by
        simp [trimRightC, hr]
      rw [this, List.cons_append, ← ht]

theorem wsCanon_trimRightC (l : List Char) (h : wsCanon l = true) :
    wsCanon (trimRightC l) = true := by
  obtain ⟨t, ht⟩ := trimRightC_prefix l
  exact wsCanon_append_left _ t (by rw [← ht]; exact h)

theorem wsCanon_trimC (l : List Char) (h : wsCanon l = true) :
    wsCanon (trimC l) = true :=
  wsCanon_trimRightC _ (wsCanon_dropWhile l h)

theorem head_dropWhile_not_ws :
    ∀ l : List Char, ∀ v, (l.dropWhile isWs).head? = some v → isWs v = false := by
  intro l
  induction l with
  | nil => intro v hv; simp at hv
  | cons c cs ih =>
    intro v hv
    by_cases hw : isWs c = true
    · rw [List.dropWhile_cons_of_pos (by simpa using hw)] at hv
      exact ih v hv
    · rw [List.dropWhile_cons_of_neg (by simpa using hw)] at hv
      cases hv
      simpa using hw

theorem trimRightC_head? :
    ∀ l : List Char, trimRightC l = [] ∨ (trimRightC l).head? = l.head? := by
  intro l
  obtain ⟨t, ht⟩ := trimRightC_prefix l
  cases hr : trimRightC l with
  | nil => exact Or.inl rfl
  | cons h0 t0 =>
    right
    rw [ht, hr]
    rfl

theorem trimRightC_last_not_ws :
    ∀ l : List Char, ∀ v, (trimRightC l).getLast? = some v → isWs v = false := by
  intro l
  induction l with
  | nil => intro v hv; simp [trimRightC] at hv
  | cons c cs ih =>
    intro v hv
    cases hr : trimRightC cs with
    | nil =>
      by_cases hw : isWs c = true
      · rw [show trimRightC (c :: cs) = [] from by simp [trimRightC, hr, hw]] at hv
        simp at hv
      · have hw' : isWs c = false := by simpa using hw
        rw [show trimRightC (c :: cs) = [c] from by simp [trimRightC, hr, hw']] at hv
        simp only [List.getLast?_singleton, Option.some.injEq] at hv
        rw [← hv]
        exact hw'
    | cons h0 t0 =>
      have hstep : trimRightC (c :: cs) = c :: h0 :: t0 := by
        simp [trimRightC, hr]
      rw [hstep, List.getLast?_cons_cons] at hv
      exact ih v (by rw [hr]; exact hv)

theorem dropWhile_id_of_head (l : List Char)
    (h : ∀ v, l.head? = some v → isWs v = false) : l.dropWhile isWs = l := by
  cases l with
  | nil => rfl
  | cons c cs =>
    have := h c rfl
    rw [List.dropWhile_cons_of_neg (by simp [this])]

theorem trimRightC_id_of_last :
    ∀ l : List Char, (∀ v, l.getLast? = some v → isWs v = false) → trimRightC l = l := by
  intro l
  induction l with
  | nil => intro _; rfl
  | cons c cs ih =>
    intro h
    cases cs with
    | nil =>
      have := h c rfl
      simp [trimRightC, this]
    | cons d ds =>
      have hcs : trimRightC (d :: ds) = d :: ds := by
        refine ih ?_
        intro v hv
        exact h v (by rw [List.getLast?_cons_cons]; exact hv)
      conv_lhs => rw [show trimRightC (c :: d :: ds) =
        (match trimRightC (d :: ds) with
         | [] => if isWs c = true then [] else [c]
         | r => c :: r) from rfl]
      rw [hcs]

theorem trimC_id_of_canon (l : List Char) (hh : ∀ v, l.head? = some v → isWs v = false)
    (hl : ∀ v, l.getLast? = some v → isWs v = false) : trimC l = l := by
  unfold trimC trimLeftC
  rw [dropWhile_id_of_head l hh]
  exact trimRightC_id_of_last l hl

theorem trimC_head_not_ws (l : List Char) :
    ∀ v, (trimC l).head? = some v → isWs v = false := by
  intro v hv
  unfold trimC trimLeftC at hv
  rcases trimRightC_head? (l.dropWhile isWs) with h0 | h0
  · rw [h0] at hv
    simp at hv
  · rw [h0] at hv
    exact head_dropWhile_not_ws l v hv

theorem trimC_last_not_ws (l : List Char) :
    ∀ v, (trimC l).getLast? = some v → isWs v = false := by
  intro v hv
  exact trimRightC_last_not_ws _ v hv

theorem normStr_idem (s t : String) (h : normStr s = some t) : normStr t = some t := by
  dsimp only [normStr] at h
  split at h
  · exact Option.noConfusion h
  · rename_i hne
    have ht : t = String.mk (trimC (collapseWsC s.data)) := by
      cases h
      rfl
    have hdata : t.data = trimC (collapseWsC s.data) := by rw [ht]
    have hcanon : wsCanon t.data = true := by
      rw [hdata]
      exact wsCanon_trimC _ (wsCanon_collapse s.data)
    have hcoll : collapseWsC t.data = t.data := collapseWsC_id _ hcanon
    have htrim : trimC t.data = t.data := by
      refine trimC_id_of_canon _ ?_ ?_
      · intro v hv
        rw [hdata] at hv
        exact trimC_head_not_ws _ v hv
      · intro v hv
        rw [hdata] at hv
        exact trimC_last_not_ws _ v hv
    dsimp only [normStr]
    rw [hcoll, htrim]
    have hmk : String.mk t.data = t := by cases t; rfl
    rw [hmk]
    rw [if_neg (by rw [ht]; exact hne)]

/-! ## Instruction walker (C10) -/

theorem jlookup_sizeOf :
    ∀ (fs : List (String × Json)) (key : String) (v : Json),
      jlookup fs key = some v → sizeOf v < sizeOf fs := by
  intro fs
  induction fs with
  | nil => intro key v hv; simp [jlookup] at hv
  | cons kv rest ih =>
    intro key v hv
    obtain ⟨k, w⟩ := kv
    by_cases hk : k = key
    · simp [jlookup, hk] at hv
      subst hv
      simp
      omega
    · simp [jlookup, hk] at hv
      have := ih key v hv
      simp
      omega

theorem walkSteps_jarr (xs : List Json) : walkSteps (.jarr xs) = walkStepsList xs := by
  simp [walkSteps]

theorem walkSteps_jstr (s0 : String) :
    walkSteps (.jstr s0) =
      if s0 = "" then []
      else match normStr s0 with
        | some c => [NormVal.vstr c]
        | none => [] := by
  simp only [walkSteps]

theorem walkSteps_jobj (fields : List (String × Json)) :
    walkSteps (.jobj fields) =
      (match textOrDescription fields with
        | some v =>
          if jtruthyJson v then
            if nvTruthy (normalizeJson v) then [normalizeJson v] else []
          else []
        | none => []) ++
      (match jlookup fields "itemListElement" with
        | some ile => if jtruthyJson ile then walkSteps ile else []
        | none => []) := by
  simp only [walkSteps]
  congr 1
  cases jlookup fields "itemListElement" <;> rfl

theorem walkStepsList_cons (x : Json) (xs : List Json) :
    walkStepsList (x :: xs) = walkSteps x ++ walkStepsList xs := by
  simp [walkStepsList]

theorem normPrim_vstr (y : String) (s : String) (h : normPrim y = NormVal.vstr s) :
    normStr y = some s := by
  unfold normPrim at h
  cases hy : normStr y with
  | none => rw [hy] at h; exact NormVal.noConfusion h
  | some t =>
    rw [hy] at h
    cases h
    rfl

theorem normalizeJson_vstr :
    ∀ (v : Json) (s : String), normalizeJson v = NormVal.vstr s →
      ∃ x, normStr x = some s := by
  intro v s h
  match v with
  | .jnull => simp [normalizeJson] at h
  | .jbool b =>
    cases b with
    | false => simp [normalizeJson] at h
    | true =>
      simp only [normalizeJson, if_pos] at h
      exact ⟨"true", normPrim_vstr _ _ (by simpa using h)⟩
  | .jnum n =>
    by_cases hn : n = 0
    · simp [normalizeJson, hn] at h
    · simp only [normalizeJson, if_neg hn] at h
      exact ⟨toString n, normPrim_vstr _ _ h⟩
  | .jstr s0 =>
    by_cases hs : s0 = ""
    · simp [normalizeJson, hs] at h
    · simp only [normalizeJson, if_neg hs] at h
      exact ⟨s0, normPrim_vstr _ _ h⟩
  | .jarr xs => simp [normalizeJson] at h
  | .jobj fs =>
    simp only [normalizeJson] at h
    exact ⟨"[object Object]", normPrim_vstr _ _ h⟩

theorem walk_vstr_norm : ∀ n : Nat,
    (∀ j : Json, sizeOf j ≤ n → ∀ s, NormVal.vstr s ∈ walkSteps j →
      ∃ x, normStr x = some s) ∧
    (∀ l : List Json, sizeOf l ≤ n → ∀ s, NormVal.vstr s ∈ walkStepsList l →
      ∃ x, normStr x = some s) := by
  intro n
  induction n using Nat.strong_induction_on with
  | _ n ih =>
    constructor
    · intro j hsz s hmem
      match j with
      | .jnull => simp [walkSteps] at hmem
      | .jbool b => simp [walkSteps] at hmem
      | .jnum m => simp [walkSteps] at hmem
      | .jstr s0 =>
        rw [walkSteps_jstr] at hmem
        by_cases h0 : s0 = ""
        · simp [h0] at hmem
        · rw [if_neg h0] at hmem
          cases hn : normStr s0 with
          | none => rw [hn] at hmem; simp at hmem
          | some c =>
            rw [hn] at hmem
            simp only [List.mem_singleton, NormVal.vstr.injEq] at hmem
            exact ⟨s0, by rw [hn, hmem]⟩
      | .jarr xs =>
        rw [walkSteps_jarr] at hmem
        have hlt : sizeOf xs < n := by
          have : sizeOf (Json.jarr xs) = 1 + sizeOf xs := by simp
          omega
        exact (ih (sizeOf xs) hlt).2 xs le_rfl s hmem
      | .jobj fields =>
        rw [walkSteps_jobj] at hmem
        rcases List.mem_append.1 hmem with hm | hm
        · cases htd : textOrDescription fields with
          | none => rw [htd] at hm; dsimp only at hm; simp at hm
          | some v =>
            rw [htd] at hm
            dsimp only at hm
            by_cases htr : jtruthyJson v = true
            · rw [if_pos htr] at hm
              by_cases hnv : nvTruthy (normalizeJson v) = true
              · rw [if_pos hnv] at hm
                simp only [List.mem_singleton] at hm
                exact normalizeJson_vstr v s hm.symm
              · rw [if_neg hnv] at hm
                simp at hm
            · rw [if_neg htr] at hm
              simp at hm
        · cases hile : jlookup fields "itemListElement" with
          | none => rw [hile] at hm; dsimp only at hm; simp at hm
          | some ile =>
            rw [hile] at hm
            dsimp only at hm
            by_cases htr : jtruthyJson ile = true
            · rw [if_pos htr] at hm
              have hlt : sizeOf ile < n := by
                have h1 := jlookup_sizeOf fields "itemListElement" ile hile
                have h2 : sizeOf (Json.jobj fields) = 1 + sizeOf fields := by simp
                omega
              exact (ih (sizeOf ile) hlt).1 ile le_rfl s hm
            · rw [if_neg htr] at hm
              simp at hm
    · intro l hsz s hmem
      match l with
      | [] => simp [walkStepsList] at hmem
      | x :: xs =>
        rw [walkStepsList_cons] at hmem
        have hx : sizeOf x < n := by
          have : sizeOf (x :: xs) = 1 + sizeOf x + sizeOf xs := by simp
          omega
        have hxs : sizeOf xs < n := by
          have : sizeOf (x :: xs) = 1 + sizeOf x + sizeOf xs := by simp
          have hpos : 0 < sizeOf x := by cases x <;> simp <;> omega
          omega
        rcases List.mem_append.1 hmem with hm | hm
        · exact (ih (sizeOf x) hx).1 x le_rfl s hm
        · exact (ih (sizeOf xs) hxs).2 xs le_rfl s hm

theorem jtruncate_nest :
    ∀ (d : Nat) (x : Json), jtruncate d (nestArr d x) = nestArr d Json.jnull := by
  intro d
  induction d with
  | zero => intro x; rfl
  | succ d ih =>
    intro x
    show jtruncate (d + 1) (.jarr [nestArr d x]) = .jarr [nestArr d Json.jnull]
    simp only [jtruncate, List.map_cons, List.map_nil]
    rw [ih x]

theorem walkSteps_nest (n : Nat) (j : Json) : walkSteps (nestArr n j) = walkSteps j := by
  induction n with
  | zero => rfl
  | succ n ih =>
    show walkSteps (.jarr [nestArr n j]) = walkSteps j
    rw [walkSteps_jarr, walkStepsList_cons, ih]
    simp [walkStepsList]

theorem collect_nest_str (n : Nat) (s : String) (hs : s ≠ "") (hn : normStr s = some s) :
    collectInstructionLines (nestArr n (.jstr s)) = [NormVal.vstr s] := by
  unfold collectInstructionLines
  rw [walkSteps_nest, walkSteps_jstr, if_neg hs, hn]
  simp [uniqBy, dedupSeen, nvTruthy, hs]

/-- C10 counterexample.  First conjunct: the walker is not bounded by any
depth guard — for every candidate depth bound D there are inputs agreeing
up to depth D (their D-truncations are equal) on which the walker differs,
because arrays nested D+0 deep still contribute their innermost strings.
Second conjunct: on an arbitrary object tree a `text` field holding an
array makes the walker push an array value, so the output is not a
sequence of strings in general. -/
theorem c10_counterexample :
    (¬ ∃ D : Nat, ∀ j1 j2 : Json,
      jtruncate D j1 = jtruncate D j2 →
        collectInstructionLines j1 = collectInstructionLines j2) ∧
    collectInstructionLines (Json.jobj [("text", Json.jarr [Json.jstr "a"])]) =
      [NormVal.varr [NormVal.vstr "a"]] := by
  constructor
  · rintro ⟨D, hD⟩
    have ha : collectInstructionLines (nestArr D (.jstr "a")) = [NormVal.vstr "a"] :=
      collect_nest_str D "a" (by decide) (by decide)
    have hb : collectInstructionLines (nestArr D (.jstr "b")) = [NormVal.vstr "b"] :=
      collect_nest_str D "b" (by decide) (by decide)
    have heq := hD (nestArr D (.jstr "a")) (nestArr D (.jstr "b"))
      (by rw [jtruncate_nest, jtruncate_nest])
    rw [ha, hb] at heq
    have : NormVal.vstr "a" = NormVal.vstr "b" := by injection heq
    have : ("a" : String) = "b" := by injection this
    exact absurd this (by decide)
  · unfold collectInstructionLines
    rw [walkSteps_jobj]
    rw [show textOrDescription [("text", Json.jarr [Json.jstr "a"])] =
      some (Json.jarr [Json.jstr "a"]) from rfl]
    rw [show jlookup [("text", Json.jarr [Json.jstr "a"])] "itemListElement" =
      (none : Option Json) from rfl]
    dsimp only
    rw [if_pos (by rfl)]
    rw [show normalizeJson (Json.jarr [Json.jstr "a"]) = NormVal.varr [NormVal.vstr "a"] from by
      simp [normalizeJson, normalizeJsonList, normPrim, nvTruthy,
        show normStr "a" = some "a" from by decide]]
    simp [uniqBy, dedupSeen, nvTruthy]

/-- C10 (amended): the walker is total on every JSON value (this theorem
quantifies over all of them; termination is structural on the finite value
tree, with no depth guard in the source), and whenever every walked step
is a plain string, `collectInstructionLines` returns a duplicate-free
sequence of non-empty, whitespace-normalized step strings. -/
theorem c10_walker (j : Json) (h : (walkSteps j).all isVstr = true) :
    (collectInstructionLines j).Nodup ∧
    ∀ v ∈ collectInstructionLines j,
      ∃ s, v = NormVal.vstr s ∧ s ≠ "" ∧ normStr s = some s := by
  constructor
  · exact nodup_uniqBy _ _
  · intro v hv
    obtain ⟨hmem, htr⟩ := (mem_uniqBy nvTruthy (walkSteps j) v).1 hv
    have hvstr : isVstr v = true := (List.all_eq_true.1 h) v hmem
    match v with
    | .vnull => exact absurd hvstr (by simp [isVstr])
    | .varr xs => exact absurd hvstr (by simp [isVstr])
    | .vstr s =>
      refine ⟨s, rfl, ?_, ?_⟩
      · intro hs
        rw [hs] at htr
        exact absurd htr (by decide)
      · obtain ⟨x, hx⟩ := (walk_vstr_norm (sizeOf j)).1 j le_rfl s hmem
        exact normStr_idem x s hx

/-- Witness for C10 at a concrete nested instruction tree. -/
theorem c10_walker_witness :
    ((walkSteps (Json.jarr [Json.jstr " Step  one ",
        Json.jobj [("text", Json.jstr "Step two")],
        Json.jarr [Json.jstr "Step one"]])).all isVstr = true) ∧
    ((collectInstructionLines (Json.jarr [Json.jstr " Step  one ",
        Json.jobj [("text", Json.jstr "Step two")],
        Json.jarr [Json.jstr "Step one"]])).Nodup ∧
      ∀ v ∈ collectInstructionLines (Json.jarr [Json.jstr " Step  one ",
        Json.jobj [("text", Json.jstr "Step two")],
        Json.jarr [Json.jstr "Step one"]]),
        ∃ s, v = NormVal.vstr s ∧ s ≠ "" ∧ normStr s = some s) :=
  have hw : walkSteps (Json.jarr [Json.jstr " Step  one ",
      Json.jobj [("text", Json.jstr "Step two")],
      Json.jarr [Json.jstr "Step one"]]) =
      [NormVal.vstr "Step one", NormVal.vstr "Step two", NormVal.vstr "Step one"] := by
    rw [walkSteps_jarr, walkStepsList_cons, walkStepsList_cons, walkStepsList_cons]
    rw [walkSteps_jstr, if_neg (by decide), show normStr " Step  one " = some "Step one"
      from by decide]
    rw [walkSteps_jobj]
    rw [show textOrDescription [("text", Json.jstr "Step two")] =
      some (Json.jstr "Step two") from rfl]
    rw [show jlookup [("text", Json.jstr "Step two")] "itemListElement" =
      (none : Option Json) from rfl]
    dsimp only
    rw [show normalizeJson (Json.jstr "Step two") = NormVal.vstr "Step two" from by
      simp [normalizeJson, normPrim, show normStr "Step two" = some "Step two" from by decide,
        show ("Step two" : String) ≠ "" from by decide]]
    rw [if_pos (show jtruthyJson (Json.jstr "Step two") = true from by decide)]
    rw [if_pos (show nvTruthy (NormVal.vstr "Step two") = true from by decide)]
    rw [walkSteps_jarr, walkStepsList_cons]
    rw [walkSteps_jstr, if_neg (by decide), show normStr "Step one" = some "Step one"
      from by decide]
    simp [walkStepsList, nvTruthy]
  ⟨by rw [hw]; decide,
   c10_walker (Json.jarr [Json.jstr " Step  one ",
     Json.jobj [("text", Json.jstr "Step two")],
     Json.jarr [Json.jstr "Step one"]]) (by rw [hw]; decide)⟩

/-! ## URL splitting lemmas (toward C4) -/

theorem splitAtAny_parts (stops : List Char) :
    ∀ l : List Char, (splitAtAny stops l).1 ++ (splitAtAny stops l).2 = l := by
  intro l
  induction l with
  | nil => rfl
  | cons c cs ih =>
    by_cases hc : c ∈ stops
    · simp [splitAtAny, hc]
    · simp [splitAtAny, hc, ih]

theorem splitAtAny_fst_ok (stops : List Char) :
    ∀ l : List Char, ∀ c ∈ (splitAtAny stops l).1, c ∉ stops := by
  intro l
  induction l with
  | nil => intro c hc; simp [splitAtAny] at hc
  | cons a cs ih =>
    intro c hc
    by_cases ha : a ∈ stops
    · simp [splitAtAny, ha] at hc
    · simp only [splitAtAny, if_neg ha] at hc
      rcases List.mem_cons.1 hc with rfl | hc
      · exact ha
      · exact ih c hc

theorem splitAtAny_snd_head (stops : List Char) :
    ∀ l : List Char, (splitAtAny stops l).2 = [] ∨
      ∃ c cs, (splitAtAny stops l).2 = c :: cs ∧ c ∈ stops := by
  intro l
  induction l with
  | nil =>exact Or.inl rfl
  | cons a cs ih =>
    by_cases ha : a ∈ stops
    · exact Or.inr ⟨a, cs, by simp [splitAtAny, ha], ha⟩
    · simpa [splitAtAny, ha] using ih

theorem splitAtAny_of_ok (stops : List Char) :
    ∀ a b : List Char, (∀ c ∈ a, c ∉ stops) →
      (b = [] ∨ ∃ c cs, b = c :: cs ∧ c ∈ stops) →
      splitAtAny stops (a ++ b) = (a, b) := by
  intro a
  induction a with
  | nil =>
    intro b _ hb
    rcases hb with rfl | ⟨c, cs, rfl, hc⟩
    · rfl
    · simp [splitAtAny, hc]
  | cons x a2 ih =>
    intro b ha hb
    have hx : x ∉ stops := ha x (List.mem_cons_self x a2)
    simp only [List.cons_append, splitAtAny, if_neg hx, List.append_eq]
    rw [ih b (fun c hc => ha c (List.mem_cons_of_mem _ hc)) hb]

theorem splitAtAny_cons_not (stops : List Char) (c : Char) (cs : List Char) (hc : c ∉ stops) :
    splitAtAny stops (c :: cs) =
      (c :: (splitAtAny stops cs).1, (splitAtAny stops cs).2) := by
  simp [splitAtAny, hc]

theorem splitAtAny_append_hash (stops : List Char) (hs : '#' ∈ stops) :
    ∀ (r f : List Char),
      splitAtAny stops (r ++ '#' :: f) =
        ((splitAtAny stops r).1, (splitAtAny stops r).2 ++ '#' :: f) := by
  intro r
  induction r with
  | nil => intro f; simp [splitAtAny, hs]
  | cons c cs ih =>
    intro f
    by_cases hc : c ∈ stops
    · simp [splitAtAny, hc]
    · simp only [List.cons_append, splitAtAny, if_neg hc, List.append_eq, ih f]

theorem dropPre_append_some :
    ∀ (pre p r t : List Char), dropPre pre p = some r →
      dropPre pre (p ++ t) = some (r ++ t) := by
  intro pre
  induction pre with
  | nil =>
    intro p r t h
    cases h
    rfl
  | cons q qs ih =>
    intro p r t h
    cases p with
    | nil => exact Option.noConfusion h
    | cons c cs =>
      simp only [dropPre] at h ⊢
      by_cases hc : c = q
      · rw [if_pos hc] at h ⊢
        exact ih cs r t h
      · rw [if_neg hc] at h
        exact Option.noConfusion h

theorem dropPre_append_hash_none :
    ∀ (pre p f : List Char), '#' ∉ pre → dropPre pre p = none →
      dropPre pre (p ++ '#' :: f) = none := by
  intro pre
  induction pre with
  | nil => intro p f _ h; exact Option.noConfusion h
  | cons q qs ih =>
    intro p f hq h
    cases p with
    | nil =>
      simp only [List.nil_append, dropPre]
      rw [if_neg (fun hh : '#' = q => hq (hh ▸ List.mem_cons_self q qs))]
    | cons c cs =>
      simp only [dropPre] at h ⊢
      by_cases hc : c = q
      · rw [if_pos hc] at h ⊢
        exact ih cs f (fun hm => hq (List.mem_cons_of_mem _ hm)) h
      · rw [if_neg hc]

theorem parseQF_fst_hash_free :
    ∀ (x qq : List Char), (parseQF x).1 = some qq → '#' ∉ qq := by
  intro x qq h
  match x with
  | [] => exact Option.noConfusion h
  | c :: rest =>
    simp only [parseQF] at h
    by_cases hc : c = '?'
    · rw [if_pos hc] at h
      split at h
      · cases h
        exact fun hm => splitAtAny_fst_ok ['#'] rest '#' hm (by simp)
      · cases h
        exact fun hm => splitAtAny_fst_ok ['#'] rest '#' hm (by simp)
    · rw [if_neg hc] at h
      by_cases hc2 : c = '#'
      · rw [if_pos hc2] at h
        exact Option.noConfusion h
      · rw [if_neg hc2] at h
        exact Option.noConfusion h

theorem parsePathQF_fst (x : List Char) :
    (parsePathQF x).1 = (splitAtAny stopPath x).1 := rfl

theorem parsePathQF_q (x : List Char) :
    (parsePathQF x).2.1 = (parseQF (splitAtAny stopPath x).2).1 := rfl

theorem parsePathQF_frag (x : List Char) :
    (parsePathQF x).2.2 = (parseQF (splitAtAny stopPath x).2).2 := rfl

theorem parseAfterScheme_wf (scheme rest : List Char) (u : UrlParts)
    (hs : scheme = "http".data ∨ scheme = "https".data)
    (h : parseAfterScheme scheme rest = some u) : UrlWF u := by
  unfold parseAfterScheme at h
  dsimp only at h
  by_cases hh : (splitAtAny stopHost rest).1 = []
  · rw [if_pos hh] at h
    exact Option.noConfusion h
  · rw [if_neg hh] at h
    split at h
    · rename_i c r heq
      by_cases hc : c = '/'
      · rw [if_pos hc] at h
        cases h
        subst hc
        refine ⟨hh, splitAtAny_fst_ok _ _, ?_, ?_, ?_, hs⟩
        · show ∃ r1, (parsePathQF ('/' :: r)).1 = '/' :: r1
          rw [parsePathQF_fst, splitAtAny_cons_not stopPath '/' r (by decide)]
          exact ⟨_, rfl⟩
        · show ∀ ch ∈ (parsePathQF ('/' :: r)).1, ch ∉ stopPath
          rw [parsePathQF_fst]
          exact splitAtAny_fst_ok _ _
        · intro qq hqq
          apply parseQF_fst_hash_free (splitAtAny stopPath ('/' :: r)).2 qq
          rw [← parsePathQF_q]
          exact hqq
      · rw [if_neg hc] at h
        cases h
        refine ⟨hh, splitAtAny_fst_ok _ _, ⟨[], rfl⟩, ?_, ?_, hs⟩
        · intro ch hch
          simp only [List.mem_singleton] at hch
          subst hch
          decide
        · intro qq hqq
          exact parseQF_fst_hash_free (c :: r) qq hqq
    · rename_i heq
      cases h
      refine ⟨hh, splitAtAny_fst_ok _ _, ⟨[], rfl⟩, ?_, ?_, hs⟩
      · intro ch hch
        simp only [List.mem_singleton] at hch
        subst hch
        decide
      · intro qq hqq
        exact Option.noConfusion hqq

theorem qpart_stop (q : Option (List Char)) (stops : List Char) (hq : '?' ∈ stops) :
    queryPart q = [] ∨ ∃ c cs, queryPart q = c :: cs ∧ c ∈ stops := by
  cases q with
  | none => exact Or.inl rfl
  | some qq => exact Or.inr ⟨'?', qq, rfl, hq⟩

theorem parseQF_qpart (q : Option (List Char)) (hq : ∀ qq, q = some qq → '#' ∉ qq) :
    parseQF (queryPart q) = (q, none) := by
  cases q with
  | none => rfl
  | some qq =>
    show parseQF ('?' :: qq) = (some qq, none)
    have hsp : splitAtAny ['#'] (qq ++ []) = (qq, []) :=
      splitAtAny_of_ok ['#'] qq []
        (fun c hc => by
          intro hmem
          simp only [List.mem_singleton] at hmem
          exact hq qq rfl (hmem ▸ hc))
        (Or.inl rfl)
    rw [List.append_nil] at hsp
    rw [show parseQF ('?' :: qq) =
      (match (splitAtAny ['#'] qq).2 with
       | _ :: f => (some (splitAtAny ['#'] qq).1, some f)
       | [] => (some (splitAtAny ['#'] qq).1, none)) from rfl]
    rw [hsp]

theorem parseAfterScheme_round (scheme host : List Char) (r0 : List Char)
    (q : Option (List Char))
    (hh : host ≠ []) (hok : ∀ c ∈ host, c ∉ stopHost)
    (hpok : ∀ c ∈ '/' :: r0, c ∉ stopPath)
    (hq : ∀ qq, q = some qq → '#' ∉ qq) :
    parseAfterScheme scheme ((host ++ '/' :: r0) ++ queryPart q) =
      some ⟨scheme, host, '/' :: r0, q, none⟩ := by
  have hsplit1 : splitAtAny stopHost (host ++ ('/' :: r0 ++ queryPart q)) =
      (host, '/' :: r0 ++ queryPart q) := by
    apply splitAtAny_of_ok _ _ _ hok
    exact Or.inr ⟨'/', r0 ++ queryPart q, rfl, by decide⟩
  have hsplit2 : splitAtAny stopPath ('/' :: r0 ++ queryPart q) = ('/' :: r0, queryPart q) :=
    splitAtAny_of_ok stopPath ('/' :: r0) (queryPart q) hpok
      (qpart_stop q stopPath (by decide))
  unfold parseAfterScheme
  rw [List.append_assoc, hsplit1]
  dsimp only
  rw [if_neg hh]
  rw [List.cons_append]
  dsimp only
  rw [if_pos rfl]
  have hp1 : (parsePathQF ('/' :: (r0 ++ queryPart q))).1 = '/' :: r0 := by
    rw [parsePathQF_fst]
    exact congrArg Prod.fst hsplit2
  have hp2 : (parsePathQF ('/' :: (r0 ++ queryPart q))).2.1 = q := by
    rw [parsePathQF_q]
    rw [show splitAtAny stopPath ('/' :: (r0 ++ queryPart q)) = ('/' :: r0, queryPart q)
      from hsplit2]
    rw [parseQF_qpart q hq]
  have hp3 : (parsePathQF ('/' :: (r0 ++ queryPart q))).2.2 = none := by
    rw [parsePathQF_frag]
    rw [show splitAtAny stopPath ('/' :: (r0 ++ queryPart q)) = ('/' :: r0, queryPart q)
      from hsplit2]
    rw [parseQF_qpart q hq]
  rw [hp1, hp2, hp3]

theorem dirOf_head (p r : List Char) (hp : p = '/' :: r) :
    ∃ t, dirOf p = '/' :: t := by
  subst hp
  unfold dirOf
  have hmem : '/' ∈ ('/' :: r).reverse := by simp
  have hne : ('/' :: r).reverse.dropWhile (fun c => decide (c ≠ '/')) ≠ [] := by
    intro hnil
    rw [List.dropWhile_eq_nil_iff] at hnil
    have := hnil '/' hmem
    simp at this
  have hpref : ∃ pre, ('/' :: r).reverse =
      pre ++ ('/' :: r).reverse.dropWhile (fun c => decide (c ≠ '/')) :=
    ⟨('/' :: r).reverse.takeWhile (fun c => decide (c ≠ '/')),
      (List.takeWhile_append_dropWhile _ _).symm⟩
  obtain ⟨pre, hpre⟩ := hpref
  cases hd : ('/' :: r).reverse.dropWhile (fun c => decide (c ≠ '/')) with
  | nil => exact absurd hd hne
  | cons d ds =>
    have hlist : ('/' :: r : List Char) = (d :: ds).reverse ++ pre.reverse := by
      have := congrArg List.reverse hpre
      rw [List.reverse_reverse, hd] at this
      rw [this, List.reverse_append]
    cases hrev : (d :: ds).reverse with
    | nil => simp at hrev
    | cons e es =>
      rw [hrev] at hlist
      have he : e = '/' := by
        have := congrArg (fun l => l.headD 'x') hlist
        simpa using this.symm
      subst he
      exact ⟨es, rfl⟩

theorem resolveRelC_wf (href : List Char) (b : UrlParts) (hb : UrlWF b) (u : UrlParts)
    (h : resolveRelC href b = some u) : UrlWF u := by
  match href with
  | [] =>
    cases h
    exact ⟨hb.host_ne, hb.host_ok, hb.path_slash, hb.path_ok, hb.query_ok, hb.scheme_ok⟩
  | c :: rest =>
    unfold resolveRelC at h
    dsimp only at h
    by_cases hc : c = '/'
    · rw [if_pos hc] at h
      subst hc
      split at h
      · rename_i c2 rest2
        by_cases hc2 : c2 = '/'
        · rw [if_pos hc2] at h
          exact parseAfterScheme_wf _ _ _ hb.scheme_ok h
        · rw [if_neg hc2] at h
          cases h
          refine ⟨hb.host_ne, hb.host_ok, ?_, ?_, ?_, hb.scheme_ok⟩
          · show ∃ r1, (parsePathQF ('/' :: c2 :: rest2)).1 = '/' :: r1
            rw [parsePathQF_fst, splitAtAny_cons_not stopPath '/' _ (by decide)]
            exact ⟨_, rfl⟩
          · show ∀ ch ∈ (parsePathQF ('/' :: c2 :: rest2)).1, ch ∉ stopPath
            rw [parsePathQF_fst]
            exact splitAtAny_fst_ok _ _
          · intro qq hqq
            apply parseQF_fst_hash_free (splitAtAny stopPath ('/' :: c2 :: rest2)).2 qq
            rw [← parsePathQF_q]
            exact hqq
      · cases h
        refine ⟨hb.host_ne, hb.host_ok, ?_, ?_, ?_, hb.scheme_ok⟩
        · show ∃ r1, (parsePathQF ['/']).1 = '/' :: r1
          rw [parsePathQF_fst, splitAtAny_cons_not stopPath '/' _ (by decide)]
          exact ⟨_, rfl⟩
        · show ∀ ch ∈ (parsePathQF ['/']).1, ch ∉ stopPath
          rw [parsePathQF_fst]
          exact splitAtAny_fst_ok _ _
        · intro qq hqq
          apply parseQF_fst_hash_free (splitAtAny stopPath ['/']).2 qq
          rw [← parsePathQF_q]
          exact hqq
    · rw [if_neg hc] at h
      by_cases hq : c = '?'
      · rw [if_pos hq] at h
        cases h
        refine ⟨hb.host_ne, hb.host_ok, hb.path_slash, hb.path_ok, ?_, hb.scheme_ok⟩
        intro qq hqq
        exact parseQF_fst_hash_free (c :: rest) qq hqq
      · rw [if_neg hq] at h
        by_cases hf : c = '#'
        · rw [if_pos hf] at h
          cases h
          exact ⟨hb.host_ne, hb.host_ok, hb.path_slash, hb.path_ok, hb.query_ok, hb.scheme_ok⟩
        · rw [if_neg hf] at h
          cases h
          obtain ⟨r0, hr0⟩ := hb.path_slash
          obtain ⟨t, ht⟩ := dirOf_head b.path r0 hr0
          refine ⟨hb.host_ne, hb.host_ok, ?_, ?_, ?_, hb.scheme_ok⟩
          · show ∃ r1, (parsePathQF (dirOf b.path ++ (c :: rest))).1 = '/' :: r1
            rw [parsePathQF_fst, ht, List.cons_append,
              splitAtAny_cons_not stopPath '/' _ (by decide)]
            exact ⟨_, rfl⟩
          · show ∀ ch ∈ (parsePathQF (dirOf b.path ++ (c :: rest))).1, ch ∉ stopPath
            rw [parsePathQF_fst]
            exact splitAtAny_fst_ok _ _
          · intro qq hqq
            apply parseQF_fst_hash_free (splitAtAny stopPath (dirOf b.path ++ (c :: rest))).2 qq
            rw [← parsePathQF_q]
            exact hqq

theorem parseUrlC_wf (l : List Char) (u : UrlParts) (h : parseUrlC l = some u) :
    UrlWF u := by
  unfold parseUrlC at h
  split at h
  · exact parseAfterScheme_wf _ _ _ (Or.inr rfl) h
  · split at h
    · exact parseAfterScheme_wf _ _ _ (Or.inl rfl) h
    · exact Option.noConfusion h

theorem resolveUrlC_wf (href base : List Char) (u : UrlParts)
    (h : resolveUrlC href base = some u) : UrlWF u := by
  unfold resolveUrlC at h
  split at h
  · rename_i u0 hp
    cases h
    exact parseUrlC_wf _ _ hp
  · rename_i hp
    split at h
    · exact Option.noConfusion h
    · split at h
      · rename_i b0 hb0
        exact resolveRelC_wf _ _ (parseUrlC_wf _ _ hb0) _ h
      · exact Option.noConfusion h

theorem serializeUrlC_split (u : UrlParts) :
    serializeUrlC u = serializeNoFragC u ++ fragPart u.frag := by
  unfold serializeNoFragC serializeUrlC
  simp [fragPart, List.append_assoc]

theorem serializeNoFragC_no_hash (u : UrlParts) (hw : UrlWF u) :
    '#' ∉ serializeNoFragC u := by
  unfold serializeNoFragC serializeUrlC
  intro hmem
  simp only [List.mem_append] at hmem
  rcases hmem with ((((hs | hs) | hs) | hs) | hs) | hs
  · rcases hw.scheme_ok with hsch | hsch <;> rw [hsch] at hs <;> exact absurd hs (by decide)
  · exact absurd hs (by decide)
  · exact hw.host_ok '#' hs (by decide)
  · exact hw.path_ok '#' hs (by decide)
  · cases hq : u.query with
    | none => rw [hq] at hs; simp [queryPart] at hs
    | some qq =>
      rw [hq] at hs
      simp only [queryPart, List.mem_cons] at hs
      rcases hs with hs | hs
      · exact absurd hs (by decide)
      · exact hw.query_ok qq hq hs
  · simp [fragPart] at hs

theorem toAbsC_final (u : UrlParts) (hw : UrlWF u) :
    (splitAtAny ['#'] (serializeUrlC u)).1 = serializeNoFragC u := by
  rw [serializeUrlC_split u]
  rw [splitAtAny_of_ok ['#'] (serializeNoFragC u) (fragPart u.frag)
    (fun c hc hcs => by
      simp only [List.mem_singleton] at hcs
      exact serializeNoFragC_no_hash u hw (hcs ▸ hc))
    (by
      cases hf : u.frag with
      | none => exact Or.inl rfl
      | some f => exact Or.inr ⟨'#', f, rfl, by decide⟩)]

theorem UrlWF_dropFrag (u : UrlParts) (hw : UrlWF u) : UrlWF { u with frag := none } :=
  ⟨hw.host_ne, hw.host_ok, hw.path_slash, hw.path_ok, hw.query_ok, hw.scheme_ok⟩

theorem parseUrlC_serialize (u : UrlParts) (hw : UrlWF u) :
    parseUrlC (serializeNoFragC u) = some { u with frag := none } := by
  obtain ⟨r0, hr0⟩ := hw.path_slash
  have hpok : ∀ c ∈ '/' :: r0, c ∉ stopPath := by
    rw [← hr0]
    exact hw.path_ok
  rcases hw.scheme_ok with hsch | hsch
  · have hshape : serializeNoFragC u =
        "http://".data ++ ((u.host ++ '/' :: r0) ++ queryPart u.query) := by
      unfold serializeNoFragC serializeUrlC
      rw [show ({ u with frag := none } : UrlParts).scheme = u.scheme from rfl, hsch,
        show ({ u with frag := none } : UrlParts).path = u.path from rfl, hr0]
      simp [fragPart, List.append_assoc]
    unfold parseUrlC
    rw [hshape]
    rw [show dropPre "https://".data
        ("http://".data ++ ((u.host ++ '/' :: r0) ++ queryPart u.query)) =
      (none : Option (List Char)) from rfl]
    rw [show dropPre "http://".data
        ("http://".data ++ ((u.host ++ '/' :: r0) ++ queryPart u.query)) =
      some ((u.host ++ '/' :: r0) ++ queryPart u.query) from rfl]
    dsimp only
    rw [parseAfterScheme_round "http".data u.host r0 u.query hw.host_ne hw.host_ok hpok
      hw.query_ok]
    rw [show ({ u with frag := none } : UrlParts) =
      ⟨u.scheme, u.host, u.path, u.query, none⟩ from rfl, hsch, hr0]
  · have hshape : serializeNoFragC u =
        "https://".data ++ ((u.host ++ '/' :: r0) ++ queryPart u.query) := by
      unfold serializeNoFragC serializeUrlC
      rw [show ({ u with frag := none } : UrlParts).scheme = u.scheme from rfl, hsch,
        show ({ u with frag := none } : UrlParts).path = u.path from rfl, hr0]
      simp [fragPart, List.append_assoc]
    unfold parseUrlC
    rw [hshape]
    rw [show dropPre "https://".data
        ("https://".data ++ ((u.host ++ '/' :: r0) ++ queryPart u.query)) =
      some ((u.host ++ '/' :: r0) ++ queryPart u.query) from rfl]
    dsimp only
    rw [parseAfterScheme_round "https".data u.host r0 u.query hw.host_ne hw.host_ok hpok
      hw.query_ok]
    rw [show ({ u with frag := none } : UrlParts) =
      ⟨u.scheme, u.host, u.path, u.query, none⟩ from rfl, hsch, hr0]

theorem serializeNoFragC_dropFrag (u : UrlParts) :
    serializeNoFragC { u with frag := none } = serializeNoFragC u := rfl

theorem toAbsC_idem (href base base2 o : List Char)
    (h : toAbsC href base = some o) : toAbsC o base2 = some o := by
  unfold toAbsC at h
  split at h
  · exact Option.noConfusion h
  · rename_i u hr
    cases h
    have hw := resolveUrlC_wf _ _ _ hr
    rw [toAbsC_final u hw]
    unfold toAbsC resolveUrlC
    rw [parseUrlC_serialize u hw]
    dsimp only
    rw [toAbsC_final _ (UrlWF_dropFrag u hw)]
    rw [serializeNoFragC_dropFrag]

theorem parseQF_other (c : Char) (rest : List Char) (h1 : c ≠ '?') (h2 : c ≠ '#') :
    parseQF (c :: rest) = (none, none) := by
  simp only [parseQF]
  rw [if_neg h1, if_neg h2]

theorem parseQF_fst_hash (x f : List Char) :
    (parseQF (x ++ '#' :: f)).1 = (parseQF x).1 := by
  cases x with
  | nil => rfl
  | cons c rest =>
    by_cases hc : c = '?'
    · subst hc
      rw [show ('?' :: rest) ++ '#' :: f = '?' :: (rest ++ '#' :: f) from rfl]
      rw [show parseQF ('?' :: (rest ++ '#' :: f)) =
        (match (splitAtAny ['#'] (rest ++ '#' :: f)).2 with
         | _ :: f2 => (some (splitAtAny ['#'] (rest ++ '#' :: f)).1, some f2)
         | [] => (some (splitAtAny ['#'] (rest ++ '#' :: f)).1, none)) from rfl]
      rw [show parseQF ('?' :: rest) =
        (match (splitAtAny ['#'] rest).2 with
         | _ :: f2 => (some (splitAtAny ['#'] rest).1, some f2)
         | [] => (some (splitAtAny ['#'] rest).1, none)) from rfl]
      rw [splitAtAny_append_hash ['#'] (by decide) rest f]
      rcases splitAtAny_snd_head ['#'] rest with hsnd | ⟨c2, cs2, hsnd, _⟩
      · rw [hsnd]
        rfl
      · rw [hsnd]
        rfl
    · by_cases hc2 : c = '#'
      · subst hc2
        rfl
      · rw [List.cons_append, parseQF_other c _ hc hc2, parseQF_other c _ hc hc2]

theorem parsePathQF_hash (x f : List Char) :
    (parsePathQF (x ++ '#' :: f)).1 = (parsePathQF x).1 ∧
      (parsePathQF (x ++ '#' :: f)).2.1 = (parsePathQF x).2.1 := by
  constructor
  · rw [parsePathQF_fst, parsePathQF_fst, splitAtAny_append_hash stopPath (by decide)]
  · rw [parsePathQF_q, parsePathQF_q, splitAtAny_append_hash stopPath (by decide)]
    exact parseQF_fst_hash _ f

theorem parseAfterScheme_hash (scheme rest f : List Char) :
    (parseAfterScheme scheme (rest ++ '#' :: f) = none ∧
      parseAfterScheme scheme rest = none) ∨
    (∃ u1 u2, parseAfterScheme scheme (rest ++ '#' :: f) = some u1 ∧
      parseAfterScheme scheme rest = some u2 ∧ noFragEq u1 u2) := by
  unfold parseAfterScheme
  rw [splitAtAny_append_hash stopHost (by decide)]
  dsimp only
  by_cases hh : (splitAtAny stopHost rest).1 = []
  · rw [if_pos hh, if_pos hh]
    exact Or.inl ⟨rfl, rfl⟩
  · rw [if_neg hh, if_neg hh]
    right
    cases hsnd : (splitAtAny stopHost rest).2 with
    | nil =>
      rw [List.nil_append]
      dsimp only
      rw [if_neg (show ¬('#' : Char) = '/' from by decide)]
      exact ⟨_, _, rfl, rfl, rfl, rfl, rfl, rfl⟩
    | cons c2 cs2 =>
      rw [List.cons_append]
      dsimp only
      by_cases hc2 : c2 = '/'
      · rw [if_pos hc2, if_pos hc2]
        exact ⟨_, _, rfl, rfl, rfl, rfl, (parsePathQF_hash (c2 :: cs2) f).1,
          (parsePathQF_hash (c2 :: cs2) f).2⟩
      · rw [if_neg hc2, if_neg hc2]
        exact ⟨_, _, rfl, rfl, rfl, rfl, rfl, parseQF_fst_hash (c2 :: cs2) f⟩

theorem hasHttpScheme_hash (p f : List Char) :
    hasHttpScheme (p ++ '#' :: f) = hasHttpScheme p := by
  unfold hasHttpScheme
  have h1 : (dropPre "https://".data (p ++ '#' :: f)).isSome =
      (dropPre "https://".data p).isSome := by
    cases hd : dropPre "https://".data p with
    | some r => rw [dropPre_append_some _ _ _ _ hd]; rfl
    | none => rw [dropPre_append_hash_none _ _ f (by decide) hd]
  have h2 : (dropPre "http://".data (p ++ '#' :: f)).isSome =
      (dropPre "http://".data p).isSome := by
    cases hd : dropPre "http://".data p with
    | some r => rw [dropPre_append_some _ _ _ _ hd]; rfl
    | none => rw [dropPre_append_hash_none _ _ f (by decide) hd]
  rw [h1, h2]

theorem parseUrlC_hash (p f : List Char) :
    (parseUrlC (p ++ '#' :: f) = none ∧ parseUrlC p = none) ∨
    (∃ u1 u2, parseUrlC (p ++ '#' :: f) = some u1 ∧ parseUrlC p = some u2 ∧
      noFragEq u1 u2) := by
  unfold parseUrlC
  cases hd : dropPre "https://".data p with
  | some r =>
    rw [dropPre_append_some _ _ _ _ hd]
    dsimp only
    exact parseAfterScheme_hash "https".data r f
  | none =>
    rw [dropPre_append_hash_none _ _ f (by decide) hd]
    dsimp only
    cases hd2 : dropPre "http://".data p with
    | some r =>
      rw [dropPre_append_some _ _ _ _ hd2]
      dsimp only
      exact parseAfterScheme_hash "http".data r f
    | none =>
      rw [dropPre_append_hash_none _ _ f (by decide) hd2]
      exact Or.inl ⟨rfl, rfl⟩

theorem resolveRelC_hash (p f : List Char) (b : UrlParts) (hp : '#' ∉ p) :
    (resolveRelC (p ++ '#' :: f) b = none ∧ resolveRelC p b = none) ∨
    (∃ u1 u2, resolveRelC (p ++ '#' :: f) b = some u1 ∧ resolveRelC p b = some u2 ∧
      noFragEq u1 u2) := by
  cases p with
  | nil =>
    right
    refine ⟨{ b with frag := some f }, { b with frag := none }, ?_, rfl, rfl, rfl, rfl, rfl⟩
    show resolveRelC ('#' :: f) b = _
    unfold resolveRelC
    dsimp only
    rw [if_neg (by decide : ¬('#' : Char) = '/'), if_neg (by decide : ¬('#' : Char) = '?'),
      if_pos rfl]
  | cons c rest =>
    have hch : c ≠ '#' := fun hcc => hp (hcc ▸ List.mem_cons_self c rest)
    rw [List.cons_append]
    unfold resolveRelC
    dsimp only
    by_cases hc : c = '/'
    · rw [if_pos hc, if_pos hc]
      cases rest with
      | nil =>
        rw [List.nil_append]
        dsimp only
        rw [if_neg (by decide : ¬('#' : Char) = '/')]
        right
        subst hc
        refine ⟨_, _, rfl, rfl, rfl, rfl, ?_, ?_⟩
        · exact (parsePathQF_hash ['/'] f).1
        · exact (parsePathQF_hash ['/'] f).2
      | cons c2 rest2 =>
        rw [List.cons_append]
        dsimp only
        by_cases hc2 : c2 = '/'
        · rw [if_pos hc2, if_pos hc2]
          exact parseAfterScheme_hash b.scheme rest2 f
        · rw [if_neg hc2, if_neg hc2]
          right
          subst hc
          refine ⟨_, _, rfl, rfl, rfl, rfl, ?_, ?_⟩
          · exact (parsePathQF_hash ('/' :: c2 :: rest2) f).1
          · exact (parsePathQF_hash ('/' :: c2 :: rest2) f).2
    · rw [if_neg hc, if_neg hc]
      by_cases hq : c = '?'
      · rw [if_pos hq, if_pos hq]
        right
        subst hq
        refine ⟨_, _, rfl, rfl, rfl, rfl, rfl, ?_⟩
        exact parseQF_fst_hash ('?' :: rest) f
      · rw [if_neg hq, if_neg hq, if_neg hch]
        rw [if_neg hch]
        right
        have hassoc : dirOf b.path ++ (c :: (rest ++ '#' :: f)) =
            (dirOf b.path ++ (c :: rest)) ++ '#' :: f := by
          simp [List.append_assoc]
        rw [hassoc]
        refine ⟨_, _, rfl, rfl, rfl, rfl, ?_, ?_⟩
        · exact (parsePathQF_hash (dirOf b.path ++ (c :: rest)) f).1
        · exact (parsePathQF_hash (dirOf b.path ++ (c :: rest)) f).2

theorem resolveUrlC_hash (p f base : List Char) (hp : '#' ∉ p) :
    (resolveUrlC (p ++ '#' :: f) base = none ∧ resolveUrlC p base = none) ∨
    (∃ u1 u2, resolveUrlC (p ++ '#' :: f) base = some u1 ∧
      resolveUrlC p base = some u2 ∧ noFragEq u1 u2) := by
  unfold resolveUrlC
  rcases parseUrlC_hash p f with ⟨hn1, hn2⟩ | ⟨u1, u2, h1, h2, hfe⟩
  · rw [hn1, hn2]
    dsimp only
    rw [hasHttpScheme_hash p f]
    by_cases hs : hasHttpScheme p = true
    · rw [if_pos hs, if_pos hs]
      exact Or.inl ⟨rfl, rfl⟩
    · rw [if_neg hs, if_neg hs]
      cases hb : parseUrlC base with
      | none => exact Or.inl ⟨rfl, rfl⟩
      | some b0 =>
        dsimp only
        exact resolveRelC_hash p f b0 hp
  · rw [h1, h2]
    dsimp only
    exact Or.inr ⟨u1, u2, rfl, rfl, hfe⟩

theorem serializeNoFragC_congr (u1 u2 : UrlParts) (h : noFragEq u1 u2) :
    serializeNoFragC u1 = serializeNoFragC u2 := by
  obtain ⟨h1, h2, h3, h4⟩ := h
  unfold serializeNoFragC serializeUrlC
  dsimp only
  rw [h1, h2, h3, h4]

theorem toAbsC_hash (l base : List Char) :
    toAbsC l base = toAbsC (splitAtAny ['#'] l).1 base := by
  rcases splitAtAny_snd_head ['#'] l with hsnd | ⟨c, cs, hsnd, hcs⟩
  · have hfst : (splitAtAny ['#'] l).1 = l := by
      have hparts := splitAtAny_parts ['#'] l
      rw [hsnd, List.append_nil] at hparts
      exact hparts
    rw [hfst]
  · have hc : c = '#' := by simpa using hcs
    subst hc
    have hparts := splitAtAny_parts ['#'] l
    rw [hsnd] at hparts
    have hfree : '#' ∉ (splitAtAny ['#'] l).1 := by
      intro hm
      exact splitAtAny_fst_ok ['#'] l '#' hm (by simp)
    conv_lhs => rw [← hparts]
    unfold toAbsC
    rcases resolveUrlC_hash (splitAtAny ['#'] l).1 cs base hfree with ⟨hn1, hn2⟩ |
      ⟨u1, u2, h1, h2, hfe⟩
    · rw [hn1, hn2]
    · rw [h1, h2]
      dsimp only
      have hw1 : UrlWF u1 := resolveUrlC_wf _ _ _ h1
      have hw2 : UrlWF u2 := resolveUrlC_wf _ _ _ h2
      rw [toAbsC_final u1 hw1, toAbsC_final u2 hw2]
      rw [serializeNoFragC_congr u1 u2 hfe]

/-- C4. The locator normalizer `toAbs` is idempotent -- whenever
`toAbs href base` resolves to `o`, normalizing `o` again (against any base)
returns `o` unchanged -- and two inputs that agree before their first `#`
(i.e. differ only by a URL fragment) normalize to the identical locator.
The tracking-parameter half of the claim fails: see the counterexample,
which exhibits two inputs differing only by a `utm_source` query parameter
that normalize to distinct locators, because `toAbs` strips only the
fragment (`u.hash = ''`) and preserves the query string. -/
theorem c4_normalizer :
    (∀ (href base base2 o : String),
      toAbs href base = some o → toAbs o base2 = some o) ∧
    (∀ (x y base : String), preFrag x = preFrag y →
      toAbs x base = toAbs y base) := by
  constructor
  · intro href base base2 o h
    unfold toAbs at h ⊢
    cases hc : toAbsC href.data base.data with
    | none => rw [hc] at h; exact Option.noConfusion h
    | some l =>
      rw [hc] at h
      rw [show (some l).map String.mk = some (String.mk l) from rfl] at h
      cases h
      rw [show (String.mk l).data = l from rfl, toAbsC_idem href.data base.data base2.data l hc]
      rfl
  · intro x y base h
    unfold toAbs
    rw [toAbsC_hash x.data base.data, toAbsC_hash y.data base.data]
    unfold preFrag at h
    rw [h]

/-- C4 witness: `toAbs` maps the relative reference
`/recipes/food/views/a#top` (against the epicurious base) to the absolute
locator without its fragment; normalizing that output again is the
identity, and changing only the fragment (`#bottom`) yields the identical
normalized locator. -/
theorem c4_normalizer_witness :
    toAbs "https://www.epicurious.com/recipes/food/views/a" "https://example.org" =
      some "https://www.epicurious.com/recipes/food/views/a" ∧
    toAbs "/recipes/food/views/a#top" "https://www.epicurious.com" =
      toAbs "/recipes/food/views/a#bottom" "https://www.epicurious.com" :=
  ⟨c4_normalizer.1 "/recipes/food/views/a#top" "https://www.epicurious.com"
      "https://example.org" "https://www.epicurious.com/recipes/food/views/a" (by decide),
   c4_normalizer.2 "/recipes/food/views/a#top" "/recipes/food/views/a#bottom"
      "https://www.epicurious.com" (by decide)⟩

/-- C4 counterexample: two locators differing only by the tracking query
parameter `utm_source=nl` do NOT normalize identically -- `toAbs` keeps the
query string, so the claim that stripped tracking parameters normalize to
the identical locator fails for the normalizer itself (query stripping
happens only in the discovery helpers, not in `toAbs`). -/
theorem c4_counterexample :
    toAbs "https://www.epicurious.com/recipes/food/views/a?utm_source=nl"
        "https://www.epicurious.com" ≠
      toAbs "https://www.epicurious.com/recipes/food/views/a"
        "https://www.epicurious.com" := by decide
